import Mathlib

/-!
Verification of the signal-axon-host event-log compaction engine and
partition-scoped frame windowing logic.

The definitions below are a shallow embedding of the TypeScript source:

* `src/focused-context-transform.ts` (current revision, the one whose
  explicit-stream check precedes the setup-frame rule) — the partition
  frame filter inside `FocusedContextTransform.process`, plus the
  current-frame append step;
* the startup in-memory frame trim (`frameHistory.slice(-maxMemoryFrames)`
  guarded by `frameCount > maxMemoryFrames`), which composes with the
  filter into the spec's `buildWindow`;
* `snapshot-compactor.ts` (`extractFacetIdsFromFrames`,
  `expandWithParentFacets`, `compactSnapshot`);
* `image-migration.ts` (`streamWriteSnapshot`).

JavaScript conventions are embedded as follows: an optional-chained string
field that may be absent or empty (falsy) is `Option String` with `none`
for both; absent arrays are empty lists; `Map.set`/`Map.get` over the
child-to-parent map is an association list where the entry written last
wins; machine integers do not overflow in any relevant computation, so
sequence numbers are `Nat`.
-/

namespace SignalAxon

/-! ## Partition frame filter (focused-context-transform.ts) -/

/-- One delta as seen by the frame filter: the filter only inspects
`delta.type === 'addFacet'` and `delta.facet?.streamId`; every other delta
shape is `other`. -/
inductive FDelta where
  | addFacet (streamId : Option String)
  | other
deriving DecidableEq

/-- One frame as seen by the frame filter: `sequence`, the optional
`frame.activeStream?.streamId`, and the `deltas` array. -/
structure FFrame where
  sequence : Nat
  activeStream : Option String
  deltas : List FDelta
deriving DecidableEq

/-- Hard-coded setup-frame constant of `FocusedContextTransform`. -/
def SETUP_FRAME_LIMIT : Nat := 5

/-- Does this delta add a facet carrying the target stream id?  Mirrors
`delta.type === 'addFacet' && delta.facet?.streamId === focusedStreamId`. -/
def deltaMatchesStream (target : String) (d : FDelta) : Bool :=
  match d with
  | .addFacet sid => sid == some target
  | .other => false

/-- The filter predicate of `FocusedContextTransform.process`
(current revision).  Rule order: no focused stream includes everything;
an explicit `activeStream` is authoritative; streamless frames with
`sequence <= limit` are setup frames; otherwise an `addFacet` delta
carrying the focused stream id rescues the frame. -/
def includeFrame (focusedStreamId : Option String) (limit : Nat)
    (frame : FFrame) : Bool :=
  match focusedStreamId with
  | none => true
  | some target =>
    match frame.activeStream with
    | some s => s == target
    | none =>
      if frame.sequence ≤ limit then true
      else frame.deltas.any (deltaMatchesStream target)

/-- The `fullState.frameHistory.filter(...)` step. -/
def selectFrames (frames : List FFrame) (target : Option String)
    (limit : Nat) : List FFrame :=
  frames.filter (includeFrame target limit)

/-- The test on the in-progress frame: no explicit stream, or no focused
stream requested, or the explicit stream matches. -/
def appendCond (cf : FFrame) (target : Option String) : Bool :=
  cf.activeStream.isNone || target.isNone || (cf.activeStream == target)

/-- The current-frame append step: the in-progress frame is appended when
its sequence is not already present and `appendCond` holds. -/
def appendCurrent (filtered : List FFrame) (current : Option FFrame)
    (target : Option String) : List FFrame :=
  match current with
  | none => filtered
  | some cf =>
    if filtered.any (fun f => f.sequence == cf.sequence) then filtered
    else if appendCond cf target then filtered ++ [cf]
    else filtered

/-- JavaScript `arr.slice(-n)`: the last `n` elements, except that
`slice(-0)` is `slice(0)`, the whole array. -/
def sliceLast {α : Type} (n : Nat) (l : List α) : List α :=
  if n = 0 then l else l.drop (l.length - n)

/-- The startup trim: `frameHistory.slice(-maxMemoryFrames)` applied only
when `frameCount > maxMemoryFrames`. -/
def clipFrames (history : List FFrame) (maxFrames : Nat) : List FFrame :=
  if maxFrames < history.length then sliceLast maxFrames history else history

/-- The spec's `buildWindow`: clip the full history to the in-memory tail,
then run the partition frame filter over the clipped slice. -/
def buildWindow (history : List FFrame) (target : Option String)
    (maxFrames : Nat) (limit : Nat) : List FFrame :=
  selectFrames (clipFrames history maxFrames) target limit

/-- Frames used by the concrete filter scenarios. -/
def scenarioAFrames : List FFrame :=
  [⟨1, none, []⟩, ⟨2, none, []⟩, ⟨3, none, []⟩, ⟨4, none, []⟩, ⟨5, none, []⟩,
   ⟨6, some "p1", []⟩, ⟨7, some "p1", [FDelta.addFacet (some "p2")]⟩,
   ⟨8, some "p1", []⟩, ⟨9, some "p1", []⟩, ⟨10, some "p1", []⟩]

/-! ## Snapshot compactor (snapshot-compactor.ts)

Records ("facets") are stored as `[id, facet]` pairs.  Only the fields the
compactor inspects are modelled: `type`, `parentId` and `children`. -/

structure CFacet where
  type : Option String
  parentId : Option String
  children : List String
deriving DecidableEq

/-- One delta as seen by the compactor: only the tag and the referenced
facet id matter (`delta.facet?.id` for addFacet, `delta.id` otherwise). -/
inductive CDelta where
  | addFacet (facetId : Option String)
  | rewriteFacet (id : Option String)
  | removeFacet (id : Option String)
  | other
deriving DecidableEq

/-- One diagnostic event: `event.payload?.facetId` and
`event.payload?.facet?.id` are both consulted. -/
structure CEvent where
  payloadFacetId : Option String
  payloadFacetInnerId : Option String
deriving DecidableEq

/-- One frame as seen by the compactor: the `deltas` array, the legacy
`transition.veilOps` array, and the `events` array (each empty when the
corresponding field is absent). -/
structure CFrame where
  deltas : List CDelta
  veilOps : List CDelta
  events : List CEvent
deriving DecidableEq

/-- The ids a single delta contributes to the referenced set. -/
def deltaFacetIds (d : CDelta) : List String :=
  match d with
  | .addFacet (some id) => [id]
  | .rewriteFacet (some id) => [id]
  | .removeFacet (some id) => [id]
  | _ => []

/-- The ids a single diagnostic event contributes. -/
def eventFacetIds (e : CEvent) : List String :=
  e.payloadFacetId.toList ++ e.payloadFacetInnerId.toList

/-- Source `extractFacetIdsFromFrames`: the ids referenced by the deltas,
legacy veilOps and events of the given frames.  The source accumulates
into a `Set`; only membership is ever used, so a list with possible
duplicates is an equivalent embedding. -/
def extractFacetIdsFromFrames (frames : List CFrame) : List String :=
  frames.flatMap fun fr =>
    fr.deltas.flatMap deltaFacetIds ++ fr.veilOps.flatMap deltaFacetIds ++
      fr.events.flatMap eventFacetIds

/-- The child-to-parent entries one facet contributes: its own `parentId`
(keyed by its own id) first, then one entry per element of its `children`
list (keyed by the child). -/
def facetEdges (entry : String × CFacet) : List (String × String) :=
  (match entry.2.parentId with
   | some p => [(entry.1, p)]
   | none => []) ++ entry.2.children.map (fun c => (c, entry.1))

/-- The `childToParent` map of `expandWithParentFacets`, as the ordered
list of `Map.set` calls; `mlookup` makes the entry written last win,
matching `Map` overwrite semantics. -/
def buildChildToParent (facets : List (String × CFacet)) : List (String × String) :=
  facets.flatMap facetEdges

/-- `childToParent.get`, honouring last-write-wins. -/
def mlookup (m : List (String × String)) (k : String) : Option String :=
  (m.reverse.find? (fun e => e.1 == k)).map (fun e => e.2)

/-- The value of the loop variable `current` of the parent walk after `n`
iterations, starting from `a` (`none` once a lookup has failed). -/
def parentIter (m : List (String × String)) : Nat → String → Option String
  | 0, a => some a
  | n + 1, a => (parentIter m n a).bind (mlookup m)

/-- The parents accumulated by the source's `while (childToParent.has(current))`
walk, bounded by explicit fuel.  The source walk carries no fuel and no
visited set; fuel `m.length` visits every node the unbounded walk would
visit (see `mem_walkParents_full_iff`), so `expandWithParentFacets` below
agrees with the source wherever the source terminates. -/
def walkParents (m : List (String × String)) : Nat → String → List String
  | 0, _ => []
  | fuel + 1, current =>
    match mlookup m current with
    | none => []
    | some p => p :: walkParents m fuel p

/-- Source `expandWithParentFacets`: the referenced ids plus every
ancestor reached by walking the child-to-parent map upward. -/
def expandWithParentFacets (facetIds : List String)
    (facets : List (String × CFacet)) : List String :=
  facetIds ++ facetIds.flatMap
    (walkParents (buildChildToParent facets) (buildChildToParent facets).length)

/-- The hard-coded always-keep type set of `compactSnapshot`. -/
def alwaysKeepTypes : List String :=
  ["element-tree", "host-state", "config", "agent-config"]

/-- Type-based retention: exact always-keep types plus the two always-keep
type prefixes. -/
def typeAlwaysKept (f : CFacet) : Bool :=
  match f.type with
  | some t =>
    alwaysKeepTypes.contains t || t.startsWith "element-" ||
      t.startsWith "component-"
  | none => false

/-- The `shouldKeep` test of `compactSnapshot`'s facet filter. -/
def shouldKeepFacet (referenced : List String) (entry : String × CFacet) : Bool :=
  referenced.contains entry.1 || typeAlwaysKept entry.2

/-- The content of a snapshot that compaction reads and rewrites. -/
structure CSnapshot where
  facets : List (String × CFacet)
  frameHistory : List CFrame
deriving DecidableEq

/-- The content produced by one compaction pass: the kept facet list and
the retained frame tail of the new snapshot. -/
structure CompactionCore where
  keptFacets : List (String × CFacet)
  recentFrames : List CFrame
deriving DecidableEq

/-- The pure content computation of `compactSnapshot`: take the last
`maxFrames` frames (`frames.slice(-maxFrames)`), extract the referenced
ids, expand with parent facets over the full facet list, and keep exactly
the facets passing `shouldKeep`. -/
def compactCore (snap : CSnapshot) (maxFrames : Nat) : CompactionCore :=
  { keptFacets := snap.facets.filter (shouldKeepFacet
      (expandWithParentFacets
        (extractFacetIdsFromFrames (sliceLast maxFrames snap.frameHistory))
        snap.facets))
    recentFrames := sliceLast maxFrames snap.frameHistory }

/-- The transitive parent relation of the child-to-parent map: `b` is
reached from `a` by one or more successful lookups. -/
def reachesParent (m : List (String × String)) (a b : String) : Prop :=
  ∃ k, 1 ≤ k ∧ parentIter m k a = some b

/-- Two facets forming a `parentId` cycle, with facet a referenced. -/
def cycFacets : List (String × CFacet) :=
  [("a", ⟨none, some "b", []⟩), ("b", ⟨none, some "a", []⟩)]

/-- Scenario B: a three-record parent chain whose deepest record is the
only one referenced by the retained frame tail. -/
def scenarioB : CSnapshot :=
  { facets := [("r1", ⟨none, none, []⟩), ("r2", ⟨none, some "r1", []⟩),
               ("r3", ⟨none, some "r2", []⟩)]
    frameHistory := [⟨[CDelta.rewriteFacet (some "r3")], [], []⟩] }

/-- Retention counterexample input A: one frame referencing record r, with
retention count 0 (JavaScript `slice(-0)` keeps every frame). -/
def retainZeroSnap : CSnapshot :=
  { facets := [("r", ⟨none, none, []⟩)]
    frameHistory := [⟨[CDelta.addFacet (some "r")], [], []⟩] }

/-- Retention counterexample input B: record c declares `parentId = x`,
but a later record y also lists c in `children`, so the `Map.set`
overwrite loses the c-to-x edge. -/
def overwriteSnap : CSnapshot :=
  { facets := [("c", ⟨none, some "x", []⟩), ("x", ⟨none, none, []⟩),
               ("y", ⟨none, none, ["c"]⟩)]
    frameHistory := [⟨[CDelta.rewriteFacet (some "c")], [], []⟩] }

/-- The snapshot content compaction reads when the snapshot also carries
`veilState.frameBucketRefs`: `bucketFrames` are the frames loaded from the
referenced bucket files.  `compactSnapshot` spreads `...snapshot.veilState`
into its output, so the bucket refs survive compaction unchanged while
`frameHistory` is replaced by the retained tail; a later compaction run on
the output therefore loads the very same bucket frames again. -/
structure BSnapshot where
  facets : List (String × CFacet)
  frameHistory : List CFrame
  bucketFrames : List CFrame
deriving DecidableEq

/-- One `compactSnapshot` pass on a bucket-bearing snapshot.  The analyzed
frame list is `frameHistory ++ bucketFrames` (the source first takes
`veilState.frameHistory`, then appends the frames loaded from
`veilState.frameBucketRefs`); the facet filter and the retained tail are
exactly `compactCore` on that combined list, and the output keeps the
bucket refs — hence the same `bucketFrames` — while storing the retained
tail as its new `frameHistory`. -/
def compactSnapshotB (s : BSnapshot) (maxFrames : Nat) : BSnapshot :=
  { facets := (compactCore (CSnapshot.mk s.facets
      (s.frameHistory ++ s.bucketFrames)) maxFrames).keptFacets
    frameHistory := (compactCore (CSnapshot.mk s.facets
      (s.frameHistory ++ s.bucketFrames)) maxFrames).recentFrames
    bucketFrames := s.bucketFrames }

/-- Idempotence counterexample input: two inline frames (the second
referencing r2) plus one bucket frame referencing rb. -/
def bucketSnap : BSnapshot :=
  { facets := [("r2", ⟨none, none, []⟩), ("rb", ⟨none, none, []⟩)]
    frameHistory := [⟨[], [], []⟩, ⟨[CDelta.rewriteFacet (some "r2")], [], []⟩]
    bucketFrames := [⟨[CDelta.rewriteFacet (some "rb")], [], []⟩] }

/-! ## Atomic write protocol of compactSnapshot -/

/-- File-system operations, as performed by the compactor. -/
inductive FsOp where
  | statOp (path : String)
  | readFileOp (path : String)
  | writeFileOp (path : String) (content : String)
  | renameOp (src dst : String)
deriving DecidableEq

/-- The file-system operations of one `compactSnapshot` run, in source
order: stat and read the original snapshot, read the frame buckets, write
the compacted JSON to `outputPath + '.tmp'`, stat the temp file, and
finally rename the temp file over the output path. -/
def compactFsOps (snapshotPath outputPath : String) (bucketPaths : List String)
    (content : String) : List FsOp :=
  [FsOp.statOp snapshotPath, FsOp.readFileOp snapshotPath] ++
    bucketPaths.map FsOp.readFileOp ++
    [FsOp.writeFileOp (outputPath ++ ".tmp") content,
     FsOp.statOp (outputPath ++ ".tmp"),
     FsOp.renameOp (outputPath ++ ".tmp") outputPath]

/-- Does this operation modify the file at path `p`? -/
def opModifies (p : String) (op : FsOp) : Bool :=
  match op with
  | .writeFileOp q _ => q == p
  | .renameOp _ dst => dst == p
  | _ => false

/-! ## Streaming serializer (image-migration.ts, streamWriteSnapshot)

JSON documents are modelled by `JVal`; numeric payloads are integers
(sequence numbers, counts, timestamps — float formatting is outside the
model).  `printJVal` models `JSON.stringify` (compact form, with string
escaping); the `parse...` functions model a conventional JSON parser,
with explicit fuel for termination; `streamChunks` models the exact
sequence of chunks written by `streamWriteSnapshot`, including the
special-cased streaming of `veilState` and its `facets` array, and the
`Object.keys` enumeration that serializes an array-valued `veilState` as
an index-keyed object. -/

/-- JSON values. -/
inductive JVal where
  | jnull
  | jbool (b : Bool)
  | jnum (n : Int)
  | jstr (s : String)
  | jarr (elems : List JVal)
  | jobj (fields : List (String × JVal))

def hexDigitChar (n : Nat) : Char :=
  if n < 10 then Char.ofNat (48 + n) else Char.ofNat (87 + n)

def escapeChar (c : Char) : List Char :=
  if c = '"' then ['\\', '"']
  else if c = '\\' then ['\\', '\\']
  else if c = '\n' then ['\\', 'n']
  else if c = '\r' then ['\\', 'r']
  else if c = '\t' then ['\\', 't']
  else if c = Char.ofNat 8 then ['\\', 'b']
  else if c = Char.ofNat 12 then ['\\', 'f']
  else if c.toNat < 32 then
    ['\\', 'u', '0', '0', hexDigitChar (c.toNat / 16), hexDigitChar (c.toNat % 16)]
  else [c]

def digitChar (n : Nat) : Char := Char.ofNat (48 + n)

def natCharsAux : Nat → Nat → List Char
  | 0, _ => []
  | fuel + 1, n =>
    if n < 10 then [digitChar n]
    else natCharsAux fuel (n / 10) ++ [digitChar (n % 10)]

def natChars (n : Nat) : List Char := natCharsAux (n + 1) n

def intChars : Int → List Char
  | Int.ofNat m => natChars m
  | Int.negSucc m => '-' :: natChars (m + 1)

mutual
def printJVal : JVal → List Char
  | .jnull => ['n', 'u', 'l', 'l']
  | .jbool true => ['t', 'r', 'u', 'e']
  | .jbool false => ['f', 'a', 'l', 's', 'e']
  | .jnum n => intChars n
  | .jstr s => '"' :: (s.data.flatMap escapeChar ++ ['"'])
  | .jarr [] => ['[', ']']
  | .jarr (v :: vs) => '[' :: (printJVal v ++ printArrTail vs)
  | .jobj [] => ['\x7b', '\x7d']
  | .jobj (kv :: kvs) => '\x7b' :: (printField kv ++ printObjTail kvs)

def printField : String × JVal → List Char
  | (k, v) => '"' :: (k.data.flatMap escapeChar ++ ('"' :: (':' :: printJVal v)))

def printArrTail : List JVal → List Char
  | [] => [']']
  | v :: vs => ',' :: (printJVal v ++ printArrTail vs)

def printObjTail : List (String × JVal) → List Char
  | [] => ['\x7d']
  | kv :: kvs => ',' :: (printField kv ++ printObjTail kvs)
end

def unescapeChar (c : Char) : Option Char :=
  if c = '"' then some '"'
  else if c = '\\' then some '\\'
  else if c = '/' then some '/'
  else if c = 'n' then some '\n'
  else if c = 'r' then some '\r'
  else if c = 't' then some '\t'
  else if c = 'b' then some (Char.ofNat 8)
  else if c = 'f' then some (Char.ofNat 12)
  else none

def hexVal (c : Char) : Option Nat :=
  if 48 ≤ c.toNat ∧ c.toNat ≤ 57 then some (c.toNat - 48)
  else if 97 ≤ c.toNat ∧ c.toNat ≤ 102 then some (c.toNat - 87)
  else if 65 ≤ c.toNat ∧ c.toNat ≤ 70 then some (c.toNat - 55)
  else none

def parseStrChars : List Char → Option (List Char × List Char)
  | [] => none
  | c :: cs =>
    if c = '"' then some ([], cs)
    else if c = '\\' then
      match cs with
      | [] => none
      | e :: cs2 =>
        if e = 'u' then
          match cs2 with
          | h1 :: h2 :: h3 :: h4 :: cs3 =>
            match hexVal h1, hexVal h2, hexVal h3, hexVal h4 with
            | some v1, some v2, some v3, some v4 =>
              (parseStrChars cs3).map
                (fun r => (Char.ofNat (((v1 * 16 + v2) * 16 + v3) * 16 + v4) :: r.1, r.2))
            | _, _, _, _ => none
          | _ => none
        else
          match unescapeChar e with
          | some u => (parseStrChars cs2).map (fun r => (u :: r.1, r.2))
          | none => none
    else (parseStrChars cs).map (fun r => (c :: r.1, r.2))

def takeDigits : List Char → (List Char × List Char)
  | [] => ([], [])
  | c :: cs =>
    if c.isDigit then
      ((takeDigits cs).1.cons c, (takeDigits cs).2)
    else ([], c :: cs)

def charsToNat (l : List Char) : Nat :=
  l.foldl (fun acc c => acc * 10 + (c.toNat - 48)) 0

def parseNumber (input : List Char) : Option (JVal × List Char) :=
  if input.head? = some '-' then
    match takeDigits input.tail with
    | ([], _) => none
    | (ds, r) => some (JVal.jnum (-(charsToNat ds : Int)), r)
  else
    match takeDigits input with
    | ([], _) => none
    | (ds, r) => some (JVal.jnum (charsToNat ds), r)

mutual
def parseJVal : Nat → List Char → Option (JVal × List Char)
  | 0, _ => none
  | fuel + 1, input =>
    match input with
    | [] => none
    | c :: rest =>
      if c = 'n' then
        match rest with
        | 'u' :: 'l' :: 'l' :: rest2 => some (JVal.jnull, rest2)
        | _ => none
      else if c = 't' then
        match rest with
        | 'r' :: 'u' :: 'e' :: rest2 => some (JVal.jbool true, rest2)
        | _ => none
      else if c = 'f' then
        match rest with
        | 'a' :: 'l' :: 's' :: 'e' :: rest2 => some (JVal.jbool false, rest2)
        | _ => none
      else if c = '"' then
        (parseStrChars rest).map (fun r => (JVal.jstr (String.mk r.1), r.2))
      else if c = '[' then
        if rest.head? = some ']' then some (JVal.jarr [], rest.tail)
        else
          match parseJVal fuel rest with
          | some (v, rest2) =>
            match parseArrTail fuel rest2 with
            | some (vs, rest3) => some (JVal.jarr (v :: vs), rest3)
            | none => none
          | none => none
      else if c = '\x7b' then
        if rest.head? = some '\x7d' then some (JVal.jobj [], rest.tail)
        else
          match parseField fuel rest with
          | some (kv, rest2) =>
            match parseObjTail fuel rest2 with
            | some (kvs, rest3) => some (JVal.jobj (kv :: kvs), rest3)
            | none => none
          | none => none
      else parseNumber (c :: rest)

def parseArrTail : Nat → List Char → Option (List JVal × List Char)
  | 0, _ => none
  | fuel + 1, input =>
    match input with
    | [] => none
    | c :: rest =>
      if c = ']' then some ([], rest)
      else if c = ',' then
        match parseJVal fuel rest with
        | some (v, rest2) =>
          match parseArrTail fuel rest2 with
          | some (vs, rest3) => some (v :: vs, rest3)
          | none => none
        | none => none
      else none

def parseField : Nat → List Char → Option ((String × JVal) × List Char)
  | 0, _ => none
  | fuel + 1, input =>
    match input with
    | [] => none
    | c :: rest =>
      if c = '"' then
        match parseStrChars rest with
        | some (k, rest2) =>
          if rest2.head? = some ':' then
            match parseJVal fuel rest2.tail with
            | some (v, rest4) => some ((String.mk k, v), rest4)
            | none => none
          else none
        | none => none
      else none

def parseObjTail : Nat → List Char → Option (List (String × JVal) × List Char)
  | 0, _ => none
  | fuel + 1, input =>
    match input with
    | [] => none
    | c :: rest =>
      if c = '\x7d' then some ([], rest)
      else if c = ',' then
        match parseField fuel rest with
        | some (kv, rest2) =>
          match parseObjTail fuel rest2 with
          | some (kvs, rest3) => some (kv :: kvs, rest3)
          | none => none
        | none => none
      else none
end

def parseDoc (s : List Char) : Option JVal :=
  match parseJVal (2 * s.length + 1) s with
  | some (v, []) => some v
  | _ => none

def headNotDigit (l : List Char) : Prop :=
  ∀ c, l.head? = some c → c.isDigit = false

mutual
def jfuel : JVal → Nat
  | .jnull => 1
  | .jbool _ => 1
  | .jnum _ => 1
  | .jstr _ => 1
  | .jarr [] => 1
  | .jarr (v :: vs) => jfuel v + jfuelArrTail vs + 1
  | .jobj [] => 1
  | .jobj (kv :: kvs) => jfuel kv.2 + jfuelObjTail kvs + 2

def jfuelArrTail : List JVal → Nat
  | [] => 1
  | v :: vs => jfuel v + jfuelArrTail vs + 1

def jfuelObjTail : List (String × JVal) → Nat
  | [] => 1
  | kv :: kvs => jfuel kv.2 + jfuelObjTail kvs + 2
end

def facetsChunks (xs : List JVal) : List (List Char) :=
  match xs with
  | [] => []
  | x :: rest => [printJVal x] ++ rest.flatMap (fun u => [[','], printJVal u])

def streamFacetsChunks (xs : List JVal) : List (List Char) :=
  [['[']] ++ facetsChunks xs ++ [[']']]

def veilFieldChunks (kv : String × JVal) : List (List Char) :=
  [printJVal (JVal.jstr kv.1) ++ [':']] ++
    (match kv.2 with
     | JVal.jarr xs => if kv.1 = "facets" then streamFacetsChunks xs else [printJVal kv.2]
     | _ => [printJVal kv.2])

def veilFieldsChunks (kvs : List (String × JVal)) : List (List Char) :=
  match kvs with
  | [] => []
  | kv :: rest => veilFieldChunks kv ++ rest.flatMap (fun u => [[',']] ++ veilFieldChunks u)

def veilArrayFieldChunks (i : Nat) (x : JVal) : List (List Char) :=
  [printJVal (JVal.jstr (String.mk (natChars i))) ++ [':'], printJVal x]

def veilArrayTailChunks : Nat → List JVal → List (List Char)
  | _, [] => []
  | i, x :: rest => [[',']] ++ veilArrayFieldChunks i x ++ veilArrayTailChunks (i + 1) rest

def veilValueChunks (v : JVal) : List (List Char) :=
  match v with
  | JVal.jobj kvs => [['\x7b']] ++ veilFieldsChunks kvs ++ [['\x7d']]
  | JVal.jarr xs =>
    [['\x7b']] ++ (match xs with
      | [] => []
      | x :: rest => veilArrayFieldChunks 0 x ++ veilArrayTailChunks 1 rest) ++ [['\x7d']]
  | _ => [printJVal v]

def topFieldChunks (kv : String × JVal) : List (List Char) :=
  [printJVal (JVal.jstr kv.1) ++ [':']] ++
    (if kv.1 = "veilState" then veilValueChunks kv.2 else [printJVal kv.2])

def streamChunks (snapshot : List (String × JVal)) : List (List Char) :=
  [['\x7b']] ++ (match snapshot with
    | [] => []
    | kv :: rest => topFieldChunks kv ++ rest.flatMap (fun u => [[',']] ++ topFieldChunks u)) ++
    [['\x7d']]

def veilArraySnap : List (String × JVal) := [("veilState", JVal.jarr [JVal.jnum 7])]

/-! ## General lemmas about the frame filter -/

theorem mem_selectFrames {frames : List FFrame} {target : Option String}
    {limit : Nat} {f : FFrame} (h : f ∈ selectFrames frames target limit) :
    f ∈ frames ∧ includeFrame target limit f = true :=
  List.mem_filter.mp h

theorem includeFrame_eq_of_explicit {P s : String} {L : Nat} {f : FFrame}
    (hs : f.activeStream = some s) (h : includeFrame (some P) L f = true) :
    s = P := by
  unfold includeFrame at h
  rw [hs] at h
  exact eq_of_beq h

/-- The current-frame append step either returns the filtered list or
appends the current frame, and appends only when the append condition
holds. -/
theorem appendCurrent_eq_or (filtered : List FFrame) (cur : Option FFrame)
    (target : Option String) :
    appendCurrent filtered cur target = filtered ∨
    ∃ cf, cur = some cf ∧ appendCond cf target = true ∧
      appendCurrent filtered cur target = filtered ++ [cf] := by
  cases cur with
  | none => exact Or.inl rfl
  | some cf =>
    unfold appendCurrent
    by_cases h1 : (filtered.any fun f => f.sequence == cf.sequence) = true
    · exact Or.inl (by simp [h1])
    · by_cases h2 : appendCond cf target = true
      · exact Or.inr ⟨cf, rfl, h2, by simp [h1, h2]⟩
      · exact Or.inl (by simp [h1, h2])

/-! ## C2: partition exclusivity -/

/-- C2: a frame returned by the partition frame filter (including the
current-frame append step) never carries an explicit active partition
different from the target partition; the explicit-partition check is
authoritative even for frames with sequence at or below the setup limit. -/
theorem partition_exclusivity
    (frames : List FFrame) (cur : Option FFrame) (P : String) (limit : Nat)
    (f : FFrame) (s : String)
    (hmem : f ∈ appendCurrent (selectFrames frames (some P) limit) cur (some P))
    (hs : f.activeStream = some s) : s = P := by
  rcases appendCurrent_eq_or (selectFrames frames (some P) limit) cur (some P) with
    heq | ⟨cf, _, hcond, heq⟩
  · rw [heq] at hmem
    exact includeFrame_eq_of_explicit hs (mem_selectFrames hmem).2
  · rw [heq] at hmem
    rcases List.mem_append.mp hmem with hin | hone
    · exact includeFrame_eq_of_explicit hs (mem_selectFrames hin).2
    · have hf : f = cf := by simpa using hone
      subst hf
      unfold appendCond at hcond
      rw [hs] at hcond
      simpa using hcond

/-- C2 witness: a setup-sequence frame explicitly in partition p1 is in the
result when filtering for p1, and the theorem applies to it. -/
theorem partition_exclusivity_witness :
    (⟨2, some "p1", []⟩ : FFrame) ∈
      appendCurrent (selectFrames [⟨2, some "p1", []⟩] (some "p1") SETUP_FRAME_LIMIT)
        none (some "p1") ∧ "p1" = "p1" :=
  ⟨by decide,
   partition_exclusivity [⟨2, some "p1", []⟩] none "p1" SETUP_FRAME_LIMIT
     ⟨2, some "p1", []⟩ "p1" (by decide) rfl⟩

/-! ## C3: global pre-clip -/

/-- C3 counterexample: with `maxFrames = 0` the JavaScript `slice(-0)`
keeps the whole history, so a frame outside the last `maxFrames` frames
(the last zero frames are none at all) still appears in the window. -/
theorem buildWindow_clip_counterexample :
    buildWindow [⟨1, none, []⟩] none 0 SETUP_FRAME_LIMIT = [⟨1, none, []⟩] ∧
      ([⟨1, none, []⟩] : List FFrame).drop (([⟨1, none, []⟩] : List FFrame).length - 0) = [] := by
  constructor
  · rfl
  · rfl

/-- C3 (amended to require a positive frame budget): for `maxFrames ≥ 1`
the window builder clips first, so every frame of the result lies in the
last `maxFrames` frames of the full history, regardless of partition
match. -/
theorem buildWindow_clips
    (history : List FFrame) (target : Option String) (maxFrames limit : Nat)
    (f : FFrame) (hM : 1 ≤ maxFrames)
    (hmem : f ∈ buildWindow history target maxFrames limit) :
    f ∈ history.drop (history.length - maxFrames) := by
  have hclip : f ∈ clipFrames history maxFrames := (mem_selectFrames hmem).1
  unfold clipFrames at hclip
  split at hclip
  · unfold sliceLast at hclip
    rw [if_neg (by omega)] at hclip
    exact hclip
  · rename_i hlen
    have hz : history.length - maxFrames = 0 := by omega
    rw [hz]
    simpa using hclip

/-- C3 witness: with a two-frame history and budget 1, the window only
contains the final frame, which indeed lies in the last-1 suffix. -/
theorem buildWindow_clips_witness :
    (⟨2, none, []⟩ : FFrame) ∈ buildWindow [⟨1, none, []⟩, ⟨2, none, []⟩] none 1 SETUP_FRAME_LIMIT ∧
      (⟨2, none, []⟩ : FFrame) ∈
        ([⟨1, none, []⟩, ⟨2, none, []⟩] : List FFrame).drop
          (([⟨1, none, []⟩, ⟨2, none, []⟩] : List FFrame).length - 1) :=
  ⟨by decide,
   buildWindow_clips [⟨1, none, []⟩, ⟨2, none, []⟩] none 1 SETUP_FRAME_LIMIT
     ⟨2, none, []⟩ (by decide) (by decide)⟩

/-! ## C4: implicit partition membership -/

/-- C4 counterexample: in Scenario A the filter returns sequences
[1,2,3,4,5], not [1,2,3,4,5,7] — frame 7 carries the explicit partition
p1, and the authoritative explicit-partition check excludes it before its
p2 AddRecord delta is ever consulted. -/
theorem implicit_membership_counterexample :
    (selectFrames scenarioAFrames (some "p2") 5).map FFrame.sequence ≠
      [1, 2, 3, 4, 5, 7] := by
  decide

/-- C4 (amended): a frame with no explicit active partition and sequence
above the setup limit is included iff one of its AddRecord deltas carries
the target partition id; in Scenario A this yields [1,2,3,4,5] — frame 7
is excluded by its explicit partition p1 despite its p2 AddRecord delta. -/
theorem implicit_membership :
    (∀ (P : String) (L : Nat) (f : FFrame), f.activeStream = none →
      L < f.sequence →
      (includeFrame (some P) L f = true ↔ FDelta.addFacet (some P) ∈ f.deltas)) ∧
    (selectFrames scenarioAFrames (some "p2") 5).map FFrame.sequence =
      [1, 2, 3, 4, 5] := by
  constructor
  · intro P L f hnone hseq
    have hgt : ¬ (f.sequence ≤ L) := by omega
    simp only [includeFrame, hnone, if_neg hgt]
    rw [List.any_eq_true]
    constructor
    · rintro ⟨d, hd, hmatch⟩
      cases d with
      | addFacet sid =>
        have hsid : sid = some P := by simpa [deltaMatchesStream] using hmatch
        rwa [hsid] at hd
      | other => simp [deltaMatchesStream] at hmatch
    · intro hd
      exact ⟨FDelta.addFacet (some P), hd, by simp [deltaMatchesStream]⟩
  · decide

/-- C4 witness: a streamless post-setup frame carrying a p2 AddRecord
delta is included when filtering for p2. -/
theorem implicit_membership_witness :
    includeFrame (some "p2") 5 ⟨7, none, [FDelta.addFacet (some "p2")]⟩ = true :=
  (implicit_membership.1 "p2" 5 ⟨7, none, [FDelta.addFacet (some "p2")]⟩
    rfl (by decide)).mpr (by decide)

/-! ## C8: ordering -/

/-- C8 counterexample: the filter preserves the input order and does not
sort, so an unsorted input yields an output that is not in ascending
sequence order. -/
theorem ordering_counterexample :
    ¬ List.Pairwise (fun a b : FFrame => a.sequence < b.sequence)
      (selectFrames [⟨2, none, []⟩, ⟨1, none, []⟩] none SETUP_FRAME_LIMIT) := by
  decide

/-- C8 (amended): when the input history is already in strictly ascending
sequence order — the append-only log invariant — the filter, the window
builder, and the current-frame append step (for an in-progress frame newer
than all history frames) all return frames in strictly ascending sequence
order, hence without duplicate sequence numbers. -/
theorem ordering_preserved
    (history : List FFrame) (cf : FFrame) (target : Option String)
    (L M : Nat)
    (hsort : List.Pairwise (fun a b : FFrame => a.sequence < b.sequence) history)
    (hcf : ∀ f ∈ history, f.sequence < cf.sequence) :
    List.Pairwise (fun a b : FFrame => a.sequence < b.sequence)
      (selectFrames history target L) ∧
    List.Pairwise (fun a b : FFrame => a.sequence < b.sequence)
      (buildWindow history target M L) ∧
    List.Pairwise (fun a b : FFrame => a.sequence < b.sequence)
      (appendCurrent (selectFrames history target L) (some cf) target) := by
  have hsel : List.Pairwise (fun a b : FFrame => a.sequence < b.sequence)
      (selectFrames history target L) :=
    List.Pairwise.sublist (List.filter_sublist history) hsort
  refine ⟨hsel, ?_, ?_⟩
  · have hclip : (clipFrames history M).Sublist history := by
      unfold clipFrames sliceLast
      split
      · split
        · exact List.Sublist.refl history
        · exact List.drop_sublist _ history
      · exact List.Sublist.refl history
    exact List.Pairwise.sublist
      (List.Sublist.trans (List.filter_sublist _) hclip) hsort
  · rcases appendCurrent_eq_or (selectFrames history target L) (some cf) target with
      heq | ⟨cf', hcf', _, heq⟩
    · rw [heq]
      exact hsel
    · have hc : cf' = cf := by
        injection hcf' with h
        exact h.symm
      rw [hc] at heq
      rw [heq]
      rw [List.pairwise_append]
      refine ⟨hsel, by simp, ?_⟩
      intro a ha b hb
      have hb' : b = cf := by simpa using hb
      subst hb'
      exact hcf a (mem_selectFrames ha).1

/-- C8 witness: a concrete sorted history with a newer in-progress frame. -/
theorem ordering_preserved_witness :
    List.Pairwise (fun a b : FFrame => a.sequence < b.sequence)
      (selectFrames [⟨1, none, []⟩] none SETUP_FRAME_LIMIT) ∧
    List.Pairwise (fun a b : FFrame => a.sequence < b.sequence)
      (buildWindow [⟨1, none, []⟩] none 3 SETUP_FRAME_LIMIT) ∧
    List.Pairwise (fun a b : FFrame => a.sequence < b.sequence)
      (appendCurrent (selectFrames [⟨1, none, []⟩] none SETUP_FRAME_LIMIT)
        (some ⟨2, none, []⟩) none) :=
  ordering_preserved [⟨1, none, []⟩] ⟨2, none, []⟩ none SETUP_FRAME_LIMIT 3
    (by decide) (by decide)

/-! ## C1: non-termination of the parent walk on a cycle -/

/-- C1: the parent walk of `expandWithParentFacets` does not terminate on a
parentId cycle.  The loop variable after any number of iterations is still
a key of the child-to-parent map (`isSome`), i.e. the guard of the
source's `while (childToParent.has(current))` loop never becomes false, so
walking upward from the referenced id a loops forever rather than stopping:
the source has no per-walk visited set. -/
theorem parent_walk_diverges_on_cycle :
    ∀ n : Nat, (parentIter (buildChildToParent cycFacets) n "a").isSome = true := by
  have key : ∀ n : Nat,
      parentIter (buildChildToParent cycFacets) n "a" = some "a" ∨
        parentIter (buildChildToParent cycFacets) n "a" = some "b" := by
    intro n
    induction n with
    | zero => exact Or.inl rfl
    | succ k ih =>
      rcases ih with h | h
      · refine Or.inr ?_
        simp only [parentIter, h, Option.bind_some]
        rfl
      · refine Or.inl ?_
        simp only [parentIter, h, Option.bind_some]
        rfl
  intro n
  rcases key n with h | h <;> simp [h]

/-! ## C9: atomic replace -/

theorem append_tmp_ne (s : String) : (s ++ ".tmp" == s) = false := by
  refine beq_eq_false_iff_ne.mpr ?_
  intro h
  have hlen := congrArg String.length h
  rw [String.length_append] at hlen
  have h4 : (".tmp" : String).length = 4 := rfl
  omega

/-- C9: compactSnapshot never writes directly to the output path — the
only operation in its trace that modifies the output path is the final
rename, and everything before that rename leaves the output path
untouched, so a failure at any earlier step leaves the original snapshot
unchanged. -/
theorem compaction_atomic (snapshotPath outputPath : String)
    (bucketPaths : List String) (content : String) :
    (∀ op ∈ compactFsOps snapshotPath outputPath bucketPaths content,
      opModifies outputPath op = true →
        op = FsOp.renameOp (outputPath ++ ".tmp") outputPath) ∧
    (∃ pre,
      compactFsOps snapshotPath outputPath bucketPaths content =
        pre ++ [FsOp.renameOp (outputPath ++ ".tmp") outputPath] ∧
      ∀ op ∈ pre, opModifies outputPath op = false) := by
  constructor
  · intro op hop hmod
    simp only [compactFsOps, List.mem_append, List.mem_cons,
      List.not_mem_nil, or_false, List.mem_map] at hop
    rcases hop with ((h | h) | ⟨p, _, h⟩) | (h | h | h) <;> subst h <;>
      simp only [opModifies] at hmod
    all_goals first
      | rfl
      | (rw [append_tmp_ne] at hmod; simp at hmod)
      | simp at hmod
  · refine ⟨[FsOp.statOp snapshotPath, FsOp.readFileOp snapshotPath] ++
      bucketPaths.map FsOp.readFileOp ++
      [FsOp.writeFileOp (outputPath ++ ".tmp") content,
       FsOp.statOp (outputPath ++ ".tmp")], by simp [compactFsOps], ?_⟩
    intro op hop
    simp only [List.mem_append, List.mem_cons, List.not_mem_nil, or_false,
      List.mem_map] at hop
    rcases hop with ((h | h) | ⟨p, _, h⟩) | (h | h) <;> subst h <;>
      simp [opModifies, append_tmp_ne]

/-! ## C10: legacy veilOps references -/

/-- C10: a record id mentioned by a delta in a retained frame's legacy
`transition.veilOps` list is included in the referenced-id set computed by
`extractFacetIdsFromFrames`, and the corresponding record survives
compaction. -/
theorem legacy_veilOps_kept
    (S : CSnapshot) (N : Nat) (fr : CFrame) (d : CDelta) (id : String)
    (f : CFacet)
    (hfr : fr ∈ sliceLast N S.frameHistory)
    (hd : d ∈ fr.veilOps)
    (hid : id ∈ deltaFacetIds d)
    (hfac : (id, f) ∈ S.facets) :
    id ∈ extractFacetIdsFromFrames (sliceLast N S.frameHistory) ∧
      (id, f) ∈ (compactCore S N).keptFacets := by
  have href : id ∈ extractFacetIdsFromFrames (sliceLast N S.frameHistory) := by
    unfold extractFacetIdsFromFrames
    rw [List.mem_flatMap]
    refine ⟨fr, hfr, ?_⟩
    rw [List.mem_append]
    refine Or.inl ?_
    rw [List.mem_append]
    refine Or.inr ?_
    rw [List.mem_flatMap]
    exact ⟨d, hd, hid⟩
  refine ⟨href, ?_⟩
  unfold compactCore
  rw [List.mem_filter]
  refine ⟨hfac, ?_⟩
  unfold shouldKeepFacet
  refine Or.inl ?_ |> Bool.or_eq_true_iff.mpr
  refine List.elem_eq_true_of_mem ?_
  unfold expandWithParentFacets
  exact List.mem_append.mpr (Or.inl href)

/-- C10 witness: a concrete snapshot whose only reference to facet r is a
legacy veilOps rewrite. -/
theorem legacy_veilOps_kept_witness :
    "r" ∈ extractFacetIdsFromFrames
        (sliceLast 1 (CSnapshot.mk [("r", ⟨none, none, []⟩)]
          [⟨[], [CDelta.rewriteFacet (some "r")], []⟩]).frameHistory) ∧
      ("r", (⟨none, none, []⟩ : CFacet)) ∈
        (compactCore (CSnapshot.mk [("r", ⟨none, none, []⟩)]
          [⟨[], [CDelta.rewriteFacet (some "r")], []⟩]) 1).keptFacets :=
  legacy_veilOps_kept
    (CSnapshot.mk [("r", ⟨none, none, []⟩)]
      [⟨[], [CDelta.rewriteFacet (some "r")], []⟩])
    1 ⟨[], [CDelta.rewriteFacet (some "r")], []⟩
    (CDelta.rewriteFacet (some "r")) "r" ⟨none, none, []⟩
    (by decide) (by decide) (by decide) (by decide)

/-! ## Reachability theory of the parent walk

The source walk has no fuel; `walkParents` carries fuel `m.length`.  The
lemmas below show that this fuel is enough: any id reachable by some
number of successful lookups is reachable by at most `m.length` of them
(the trajectory of a deterministic step function revisits a key after at
most `m.length` fresh keys), so the fuelled walk computes exactly the set
of transitive parents. -/

theorem parentIter_add (m : List (String × String)) (i j : Nat) (a : String) :
    parentIter m (i + j) a = (parentIter m i a).bind (fun b => parentIter m j b) := by
  induction j with
  | zero =>
    cases h : parentIter m i a <;> simp [parentIter, h]
  | succ j ih =>
    have h1 : i + (j + 1) = (i + j) + 1 := rfl
    rw [h1]
    show (parentIter m (i + j) a).bind (mlookup m) = _
    rw [ih]
    cases h : parentIter m i a with
    | none => simp
    | some b => simp [parentIter]

theorem parentIter_isSome_of_le (m : List (String × String)) (j k : Nat) (a : String)
    (h : j ≤ k) (hk : (parentIter m k a).isSome = true) :
    (parentIter m j a).isSome = true := by
  have hsplit : k = j + (k - j) := by omega
  rw [hsplit, parentIter_add] at hk
  cases hcase : parentIter m j a with
  | none => rw [hcase] at hk; simp at hk
  | some b => simp

theorem mlookup_key {m : List (String × String)} {b p : String}
    (h : mlookup m b = some p) : b ∈ m.map Prod.fst := by
  unfold mlookup at h
  cases hf : m.reverse.find? (fun e => e.1 == b) with
  | none => rw [hf] at h; simp at h
  | some e =>
    have hmem : e ∈ m.reverse := List.mem_of_find?_eq_some hf
    have hpred := List.find?_some hf
    have heb : e.1 = b := by simpa using hpred
    rw [List.mem_reverse] at hmem
    rw [← heb]
    exact List.mem_map_of_mem Prod.fst hmem

theorem parentIter_reduce (m : List (String × String)) :
    ∀ k a b, parentIter m k a = some b → 1 ≤ k →
      ∃ kk, 1 ≤ kk ∧ kk ≤ m.length ∧ parentIter m kk a = some b := by
  intro k
  induction k using Nat.strong_induction_on with
  | _ k ih =>
    intro a b hk hk1
    by_cases hle : k ≤ m.length
    · exact ⟨k, hk1, hle, hk⟩
    · push_neg at hle
      have hksome : (parentIter m k a).isSome = true := by rw [hk]; rfl
      have hkey : ∀ i, i ≤ m.length →
          ∃ c, parentIter m i a = some c ∧ c ∈ m.map Prod.fst := by
        intro i hi
        have hs : (parentIter m i a).isSome = true :=
          parentIter_isSome_of_le m i k a (by omega) hksome
        cases hc : parentIter m i a with
        | none => rw [hc] at hs; simp at hs
        | some c =>
          refine ⟨c, rfl, ?_⟩
          have hs1 : (parentIter m (i + 1) a).isSome = true :=
            parentIter_isSome_of_le m (i + 1) k a (by omega) hksome
          have hstep : parentIter m (i + 1) a = (parentIter m i a).bind (mlookup m) := rfl
          rw [hstep, hc] at hs1
          have hs2 : (mlookup m c).isSome = true := by simpa using hs1
          cases hp : mlookup m c with
          | none => rw [hp] at hs2; simp at hs2
          | some p => exact mlookup_key hp
      have hcard : ((m.map Prod.fst).toFinset).card < (Finset.range (m.length + 1)).card := by
        have hc1 := List.toFinset_card_le (m.map Prod.fst)
        have hlen : (m.map Prod.fst).length = m.length := List.length_map m Prod.fst
        simp only [Finset.card_range]
        omega
      have hmaps : ∀ i ∈ Finset.range (m.length + 1),
          (parentIter m i a).getD "" ∈ (m.map Prod.fst).toFinset := by
        intro i hi
        rw [Finset.mem_range] at hi
        obtain ⟨c, hc, hck⟩ := hkey i (by omega)
        rw [hc]
        simpa using hck
      obtain ⟨x, hx, y, hy, hxy, hfeq⟩ :=
        Finset.exists_ne_map_eq_of_card_lt_of_maps_to hcard hmaps
      rw [Finset.mem_range] at hx hy
      have main : ∀ u v : Nat, u < v → v ≤ m.length →
          (parentIter m u a).getD "" = (parentIter m v a).getD "" →
          ∃ kk, 1 ≤ kk ∧ kk ≤ m.length ∧ parentIter m kk a = some b := by
        intro u v huv hv hg
        obtain ⟨c, hcu, _⟩ := hkey u (by omega)
        obtain ⟨c', hcv, _⟩ := hkey v (by omega)
        have hceq : c = c' := by
          rw [hcu, hcv] at hg
          simpa using hg
        have hiter : parentIter m u a = parentIter m v a := by rw [hcu, hcv, hceq]
        have hkv : k = v + (k - v) := by omega
        have hshift : parentIter m (u + (k - v)) a = some b := by
          rw [parentIter_add, hiter, ← parentIter_add, ← hkv]
          exact hk
        exact ih (u + (k - v)) (by omega) a b hshift (by omega)
      rcases Nat.lt_or_ge x y with hlt | hge
      · exact main x y hlt (by omega) hfeq
      · have hlt : y < x := by omega
        exact main y x hlt (by omega) hfeq.symm

theorem parentIter_one (m : List (String × String)) (a : String) :
    parentIter m 1 a = mlookup m a := by
  show (parentIter m 0 a).bind (mlookup m) = mlookup m a
  simp [parentIter]

theorem parentIter_none_of_lookup_none (m : List (String × String)) (a : String)
    (h : mlookup m a = none) : ∀ k, 1 ≤ k → parentIter m k a = none := by
  intro k hk
  have hsplit : k = 1 + (k - 1) := by omega
  rw [hsplit, parentIter_add, parentIter_one, h]
  rfl

theorem parentIter_shift (m : List (String × String)) (k : Nat) (a p : String)
    (h : mlookup m a = some p) : parentIter m (k + 1) a = parentIter m k p := by
  have h1 : k + 1 = 1 + k := by omega
  rw [h1, parentIter_add, parentIter_one, h]
  rfl

theorem mem_walkParents_iff (m : List (String × String)) :
    ∀ (fuel : Nat) (a b : String),
      b ∈ walkParents m fuel a ↔
        ∃ k, 1 ≤ k ∧ k ≤ fuel ∧ parentIter m k a = some b := by
  intro fuel
  induction fuel with
  | zero =>
    intro a b
    simp only [walkParents, List.not_mem_nil, false_iff]
    rintro ⟨k, h1, h2, _⟩
    omega
  | succ fuel ih =>
    intro a b
    cases hl : mlookup m a with
    | none =>
      simp only [walkParents, hl, List.not_mem_nil, false_iff]
      rintro ⟨k, h1, _, h3⟩
      rw [parentIter_none_of_lookup_none m a hl k h1] at h3
      exact Option.noConfusion h3
    | some p =>
      simp only [walkParents, hl, List.mem_cons]
      constructor
      · rintro (rfl | hmem)
        · exact ⟨1, Nat.le_refl 1, by omega, by rw [parentIter_one, hl]⟩
        · obtain ⟨k, h1, h2, h3⟩ := (ih p b).mp hmem
          refine ⟨k + 1, by omega, by omega, ?_⟩
          rw [parentIter_shift m k a p hl]
          exact h3
      · rintro ⟨k, h1, h2, h3⟩
        rcases Nat.eq_or_lt_of_le h1 with heq | hgt
        · rw [← heq, parentIter_one, hl] at h3
          exact Or.inl (Option.some.inj h3).symm
        · have hk : k = (k - 1) + 1 := by omega
          rw [hk, parentIter_shift m (k - 1) a p hl] at h3
          exact Or.inr ((ih p b).mpr ⟨k - 1, by omega, by omega, h3⟩)

theorem mem_walkParents_full_iff (m : List (String × String)) (a b : String) :
    b ∈ walkParents m m.length a ↔ reachesParent m a b := by
  rw [mem_walkParents_iff]
  constructor
  · rintro ⟨k, h1, _, h3⟩
    exact ⟨k, h1, h3⟩
  · rintro ⟨k, h1, h3⟩
    obtain ⟨kk, hk1, hk2, hk3⟩ := parentIter_reduce m k a b h3 h1
    exact ⟨kk, hk1, hk2, hk3⟩

theorem mem_expandWithParentFacets (refs : List String)
    (facets : List (String × CFacet)) (x : String) :
    x ∈ expandWithParentFacets refs facets ↔
      x ∈ refs ∨ ∃ r ∈ refs, reachesParent (buildChildToParent facets) r x := by
  unfold expandWithParentFacets
  rw [List.mem_append, List.mem_flatMap]
  simp only [mem_walkParents_full_iff]

theorem expanded_closed (refs : List String) (facets : List (String × CFacet)) :
    ∀ x ∈ expandWithParentFacets refs facets, ∀ p,
      mlookup (buildChildToParent facets) x = some p →
      p ∈ expandWithParentFacets refs facets := by
  intro x hx p hp
  rw [mem_expandWithParentFacets] at hx ⊢
  rcases hx with hx | ⟨r, hr, k, h1, h3⟩
  · refine Or.inr ⟨x, hx, 1, Nat.le_refl 1, ?_⟩
    rw [parentIter_one]
    exact hp
  · refine Or.inr ⟨r, hr, k + 1, by omega, ?_⟩
    show (parentIter (buildChildToParent facets) k r).bind
      (mlookup (buildChildToParent facets)) = some p
    rw [h3]
    exact hp

/-! ## Lemmas about rebuilding the map over the kept facet list -/

theorem reverse_flatMap_blocks {α β : Type} (f : α → List β) (l : List α) :
    (l.flatMap f).reverse = l.reverse.flatMap (fun x => (f x).reverse) := by
  induction l with
  | nil => rfl
  | cons a t ih => simp [List.flatMap_cons, ih]

theorem find?_flatMap_block {α β : Type} (g : α → List β) (p : β → Bool) :
    ∀ (L : List α) (bk : α),
      L.find? (fun x => ((g x).find? p).isSome) = some bk →
      (L.flatMap g).find? p = (g bk).find? p := by
  intro L
  induction L with
  | nil => intro bk h; exact absurd h (by simp)
  | cons b rest ih =>
    intro bk h
    rw [List.flatMap_cons, List.find?_append]
    by_cases hb : ((g b).find? p).isSome = true
    · have hbk : bk = b := by
        rw [List.find?_cons_of_pos rest hb] at h
        exact (Option.some.inj h).symm
      subst hbk
      cases he : (g bk).find? p with
      | none => rw [he] at hb; simp at hb
      | some e => rfl
    · have hnone : (g b).find? p = none :=
        Option.not_isSome_iff_eq_none.mp (by simpa using hb)
      rw [hnone]
      show (rest.flatMap g).find? p = _
      have h' : rest.find? (fun x => ((g x).find? p).isSome) = some bk := by
        rw [List.find?_cons_of_neg rest hb] at h
        exact h
      exact ih bk h'

theorem find?_flatMap_filter {α β : Type} (g : α → List β) (q : α → Bool) (p : β → Bool) :
    ∀ (L : List α),
      (∀ bk, L.find? (fun x => ((g x).find? p).isSome) = some bk → q bk = true) →
      ((L.filter q).flatMap g).find? p = (L.flatMap g).find? p := by
  intro L
  induction L with
  | nil => intro _; rfl
  | cons b rest ih =>
    intro hq
    by_cases hb : ((g b).find? p).isSome = true
    · have hqb : q b = true := hq b (List.find?_cons_of_pos rest hb)
      rw [List.filter_cons_of_pos hqb, List.flatMap_cons, List.flatMap_cons,
        List.find?_append, List.find?_append]
      cases he : (g b).find? p with
      | none => rw [he] at hb; simp at hb
      | some e => rfl
    · have hnone : (g b).find? p = none :=
        Option.not_isSome_iff_eq_none.mp (by simpa using hb)
      have hq' : ∀ bk, rest.find? (fun x => ((g x).find? p).isSome) = some bk →
          q bk = true := by
        intro bk hbk
        refine hq bk ?_
        rw [List.find?_cons_of_neg rest hb]
        exact hbk
      by_cases hqb : q b = true
      · rw [List.filter_cons_of_pos hqb, List.flatMap_cons, List.flatMap_cons,
          List.find?_append, List.find?_append, hnone]
        show ((rest.filter q).flatMap g).find? p = (rest.flatMap g).find? p
        exact ih hq'
      · rw [List.filter_cons_of_neg (by simpa using hqb), List.flatMap_cons,
          List.find?_append, hnone]
        show ((rest.filter q).flatMap g).find? p = (rest.flatMap g).find? p
        exact ih hq'

/-- Filtering the facet list with `shouldKeepFacet E` does not change any
lookup at a key of `E`, provided `E` is closed under lookups: the winning
entry's contributor is either the key's own facet (its id is the key,
hence in `E`) or the parent facet (its id is the looked-up value, in `E`
by closure), and both are kept, while relative entry order is preserved. -/
theorem mlookup_agree_of_closed (facets : List (String × CFacet))
    (E : List String) (v : String) (hv : v ∈ E)
    (hclosed : ∀ x ∈ E, ∀ p, mlookup (buildChildToParent facets) x = some p →
      p ∈ E) :
    mlookup (buildChildToParent (facets.filter (shouldKeepFacet E))) v =
      mlookup (buildChildToParent facets) v := by
  have hrev : (buildChildToParent facets).reverse =
      facets.reverse.flatMap (fun x => (facetEdges x).reverse) :=
    reverse_flatMap_blocks facetEdges facets
  have hrev' : (buildChildToParent (facets.filter (shouldKeepFacet E))).reverse =
      (facets.reverse.filter (shouldKeepFacet E)).flatMap
        (fun x => (facetEdges x).reverse) := by
    have h0 : (buildChildToParent (facets.filter (shouldKeepFacet E))).reverse =
        (facets.filter (shouldKeepFacet E)).reverse.flatMap
          (fun x => (facetEdges x).reverse) :=
      reverse_flatMap_blocks facetEdges (facets.filter (shouldKeepFacet E))
    rw [h0, ← List.filter_reverse]
  show ((buildChildToParent (facets.filter (shouldKeepFacet E))).reverse.find?
      (fun e => e.1 == v)).map (fun e : String × String => e.2) =
    ((buildChildToParent facets).reverse.find? (fun e => e.1 == v)).map
      (fun e : String × String => e.2)
  rw [hrev, hrev']
  refine congrArg (Option.map (fun e : String × String => e.2)) ?_
  refine find?_flatMap_filter (fun x => (facetEdges x).reverse) (shouldKeepFacet E)
    (fun e => e.1 == v) facets.reverse ?_
  intro bk hbk
  have hwin := find?_flatMap_block (fun x => (facetEdges x).reverse)
    (fun e => e.1 == v) facets.reverse bk hbk
  have hpred := List.find?_some hbk
  cases he : (facetEdges bk).reverse.find? (fun e => e.1 == v) with
  | none =>
    rw [he] at hpred
    simp at hpred
  | some e =>
    have hkeye := List.find?_some he
    have hkeyv : e.1 = v := by simpa using hkeye
    have hemem : e ∈ facetEdges bk := List.mem_reverse.mp (List.mem_of_find?_eq_some he)
    have hlook : mlookup (buildChildToParent facets) v = some e.2 := by
      show ((buildChildToParent facets).reverse.find? (fun e => e.1 == v)).map
        (fun e => e.2) = some e.2
      rw [hrev, hwin, he]
      rfl
    unfold facetEdges at hemem
    rw [List.mem_append] at hemem
    unfold shouldKeepFacet
    rcases hemem with hpar | hchild
    · have hbk1 : bk.1 = v := by
        cases hpp : bk.2.parentId with
        | none => rw [hpp] at hpar; simp at hpar
        | some pp =>
          rw [hpp] at hpar
          have hpe : e = (bk.1, pp) := by simpa using hpar
          rw [← hkeyv, hpe]
      refine Bool.or_eq_true_iff.mpr (Or.inl ?_)
      refine List.elem_eq_true_of_mem ?_
      rw [hbk1]
      exact hv
    · rw [List.mem_map] at hchild
      obtain ⟨c, _, hc⟩ := hchild
      have hbk2 : bk.1 = e.2 := by rw [← hc]
      refine Bool.or_eq_true_iff.mpr (Or.inl ?_)
      refine List.elem_eq_true_of_mem ?_
      rw [hbk2]
      exact hclosed v hv e.2 hlook

/-- If two maps agree on a set closed under lookups in the first map, the
parent iteration from a member of the set is identical in both maps, and
every iterate stays in the set. -/
theorem parentIter_agree_aux (m m' : List (String × String)) (E : List String)
    (hagree : ∀ v ∈ E, mlookup m' v = mlookup m v)
    (hclosed : ∀ v ∈ E, ∀ p, mlookup m v = some p → p ∈ E)
    (r : String) (hr : r ∈ E) :
    ∀ k, parentIter m' k r = parentIter m k r ∧
      (∀ w, parentIter m k r = some w → w ∈ E) := by
  intro k
  induction k with
  | zero =>
    refine ⟨rfl, ?_⟩
    intro w hw
    have hrw : r = w := Option.some.inj hw
    rw [← hrw]
    exact hr
  | succ k ih =>
    constructor
    · show (parentIter m' k r).bind (mlookup m') = (parentIter m k r).bind (mlookup m)
      rw [ih.1]
      cases hw : parentIter m k r with
      | none => rfl
      | some w =>
        show mlookup m' w = mlookup m w
        exact hagree w (ih.2 w hw)
    · intro w hw
      have hw' : (parentIter m k r).bind (mlookup m) = some w := hw
      cases hu : parentIter m k r with
      | none => rw [hu] at hw'; exact absurd hw' (by simp)
      | some u =>
        rw [hu] at hw'
        exact hclosed u (ih.2 u hu) w hw'

/-- Every id in the expansion over the full facet list is still in the
expansion over the kept facet list. -/
theorem expanded_subset_of_filter (refs : List String)
    (facets : List (String × CFacet)) :
    ∀ x ∈ expandWithParentFacets refs facets,
      x ∈ expandWithParentFacets refs
        (facets.filter (shouldKeepFacet (expandWithParentFacets refs facets))) := by
  intro x hx
  have hclosed := expanded_closed refs facets
  have hagree : ∀ v ∈ expandWithParentFacets refs facets,
      mlookup (buildChildToParent
        (facets.filter (shouldKeepFacet (expandWithParentFacets refs facets)))) v =
      mlookup (buildChildToParent facets) v :=
    fun v hv => mlookup_agree_of_closed facets _ v hv hclosed
  rw [mem_expandWithParentFacets] at hx
  rw [mem_expandWithParentFacets]
  rcases hx with hx | ⟨r, hr, k, h1, h3⟩
  · exact Or.inl hx
  · refine Or.inr ⟨r, hr, k, h1, ?_⟩
    have hrE : r ∈ expandWithParentFacets refs facets :=
      List.mem_append.mpr (Or.inl hr)
    have hag := (parentIter_agree_aux (buildChildToParent facets)
      (buildChildToParent
        (facets.filter (shouldKeepFacet (expandWithParentFacets refs facets))))
      (expandWithParentFacets refs facets) hagree hclosed r hrE k).1
    rw [hag]
    exact h3

/-! ## C5: reachability-exact retention -/

/-- C5 counterexample.  Input A: with retention count 0 the JavaScript
`slice(-0)` keeps every frame, so record r is kept although the last zero
frames reference nothing and r has no always-keep type.  Input B: record c
declares `parentId = x` and is referenced, x has no always-keep type, yet
x is dropped — the later record y lists c in `children`, and the `Map.set`
overwrite discards the c-to-x edge before the walk runs. -/
theorem compaction_exactness_counterexample :
    ((compactCore retainZeroSnap 0).keptFacets =
        [("r", (⟨none, none, []⟩ : CFacet))] ∧
      retainZeroSnap.frameHistory.drop (retainZeroSnap.frameHistory.length - 0) = [] ∧
      typeAlwaysKept (⟨none, none, []⟩ : CFacet) = false) ∧
    (("c", (⟨none, some "x", []⟩ : CFacet)) ∈ overwriteSnap.facets ∧
      "c" ∈ extractFacetIdsFromFrames
        (overwriteSnap.frameHistory.drop (overwriteSnap.frameHistory.length - 1)) ∧
      typeAlwaysKept (⟨none, none, []⟩ : CFacet) = false ∧
      ("x", (⟨none, none, []⟩ : CFacet)) ∉ (compactCore overwriteSnap 1).keptFacets) := by
  decide

/-- C5 (amended): for retention counts N ≥ 1, compaction keeps exactly the
records whose id is referenced by the last N frames, the records reachable
from a referenced id by walking the child-to-parent map (where a child's
latest parent declaration wins, `Map.set` overwrite), and the always-keep
typed records; nothing else is kept. -/
theorem compaction_exactness (S : CSnapshot) (N : Nat) (hN : 1 ≤ N) :
    (∀ id f, (id, f) ∈ S.facets →
      (id ∈ extractFacetIdsFromFrames
          (S.frameHistory.drop (S.frameHistory.length - N)) ∨
        (∃ r ∈ extractFacetIdsFromFrames
            (S.frameHistory.drop (S.frameHistory.length - N)),
          reachesParent (buildChildToParent S.facets) r id) ∨
        typeAlwaysKept f = true) →
      (id, f) ∈ (compactCore S N).keptFacets) ∧
    (∀ id f, (id, f) ∈ (compactCore S N).keptFacets →
      (id ∈ extractFacetIdsFromFrames
          (S.frameHistory.drop (S.frameHistory.length - N)) ∨
        (∃ r ∈ extractFacetIdsFromFrames
            (S.frameHistory.drop (S.frameHistory.length - N)),
          reachesParent (buildChildToParent S.facets) r id) ∨
        typeAlwaysKept f = true)) := by
  have hslice : sliceLast N S.frameHistory =
      S.frameHistory.drop (S.frameHistory.length - N) := by
    unfold sliceLast
    rw [if_neg (by omega)]
  have hiff : ∀ (id : String) (f : CFacet),
      shouldKeepFacet (expandWithParentFacets
        (extractFacetIdsFromFrames (sliceLast N S.frameHistory)) S.facets)
        (id, f) = true ↔
      (id ∈ extractFacetIdsFromFrames
          (S.frameHistory.drop (S.frameHistory.length - N)) ∨
        (∃ r ∈ extractFacetIdsFromFrames
            (S.frameHistory.drop (S.frameHistory.length - N)),
          reachesParent (buildChildToParent S.facets) r id) ∨
        typeAlwaysKept f = true) := by
    intro id f
    rw [hslice]
    unfold shouldKeepFacet
    rw [Bool.or_eq_true_iff]
    constructor
    · rintro (hc | ht)
      · have hmem : id ∈ expandWithParentFacets
            (extractFacetIdsFromFrames
              (S.frameHistory.drop (S.frameHistory.length - N))) S.facets :=
          List.mem_of_elem_eq_true hc
        rw [mem_expandWithParentFacets] at hmem
        rcases hmem with h | h
        · exact Or.inl h
        · exact Or.inr (Or.inl h)
      · exact Or.inr (Or.inr ht)
    · rintro (h | h | h)
      · refine Or.inl (List.elem_eq_true_of_mem ?_)
        rw [mem_expandWithParentFacets]
        exact Or.inl h
      · refine Or.inl (List.elem_eq_true_of_mem ?_)
        rw [mem_expandWithParentFacets]
        exact Or.inr h
      · exact Or.inr h
  constructor
  · intro id f hmem hcond
    show (id, f) ∈ S.facets.filter (shouldKeepFacet _)
    rw [List.mem_filter]
    exact ⟨hmem, (hiff id f).mpr hcond⟩
  · intro id f hmem
    have hmem' : (id, f) ∈ S.facets.filter (shouldKeepFacet
        (expandWithParentFacets
          (extractFacetIdsFromFrames (sliceLast N S.frameHistory)) S.facets)) := hmem
    rw [List.mem_filter] at hmem'
    exact (hiff id f).mp hmem'.2

/-- C5 witness: Scenario B — a chain r3 to r2 to r1 with only r3
referenced and no always-keep types retains all three records. -/
theorem compaction_exactness_witness :
    ("r1", (⟨none, none, []⟩ : CFacet)) ∈ (compactCore scenarioB 1).keptFacets ∧
    ("r2", (⟨none, some "r1", []⟩ : CFacet)) ∈ (compactCore scenarioB 1).keptFacets ∧
    ("r3", (⟨none, some "r2", []⟩ : CFacet)) ∈ (compactCore scenarioB 1).keptFacets :=
  ⟨(compaction_exactness scenarioB 1 (by decide)).1 "r1" ⟨none, none, []⟩ (by decide)
      (Or.inr (Or.inl ⟨"r3", by decide, 2, by decide, by decide⟩)),
   (compaction_exactness scenarioB 1 (by decide)).1 "r2" ⟨none, some "r1", []⟩ (by decide)
      (Or.inr (Or.inl ⟨"r3", by decide, 1, by decide, by decide⟩)),
   (compaction_exactness scenarioB 1 (by decide)).1 "r3" ⟨none, some "r2", []⟩ (by decide)
      (Or.inl (by decide))⟩

/-! ## C6: idempotence of compaction -/

/-- Helper: compacting the content produced by `compactCore` again with
the same retention count reproduces it exactly — the same kept facet list
and the same retained frame tail. -/
theorem compactCore_idempotent (S : CSnapshot) (N : Nat) :
    compactCore (CSnapshot.mk (compactCore S N).keptFacets
      (compactCore S N).recentFrames) N = compactCore S N := by
  have hframes : sliceLast N (sliceLast N S.frameHistory) =
      sliceLast N S.frameHistory := by
    by_cases h : N = 0
    · simp [sliceLast, h]
    · simp only [sliceLast, if_neg h]
      have hz : S.frameHistory.length - (S.frameHistory.length - N) - N = 0 := by
        omega
      rw [List.length_drop, hz, List.drop_zero]
  simp only [compactCore]
  rw [CompactionCore.mk.injEq]
  constructor
  · rw [hframes]
    refine List.filter_eq_self.mpr ?_
    intro entry hentry
    have h2 := List.mem_filter.mp hentry
    have hK := h2.2
    unfold shouldKeepFacet at hK ⊢
    rcases Bool.or_eq_true_iff.mp hK with hc | ht
    · refine Bool.or_eq_true_iff.mpr (Or.inl ?_)
      refine List.elem_eq_true_of_mem ?_
      exact expanded_subset_of_filter
        (extractFacetIdsFromFrames (sliceLast N S.frameHistory)) S.facets entry.1
        (List.mem_of_elem_eq_true hc)
    · exact Bool.or_eq_true_iff.mpr (Or.inr ht)
  · exact hframes

/-- C6 counterexample: compaction preserves the frame-bucket refs while
replacing `frameHistory` with the retained tail, so a second pass reloads
the bucket frames and appends them to the already-retained tail.  On
`bucketSnap` with retention 2 the first pass retains [h2, fb] and keeps
both facets; the second pass analyzes [h2, fb, fb], retains [fb, fb] and
drops the facet referenced only by h2 — a different result. -/
theorem compaction_idempotent_counterexample :
    compactSnapshotB (compactSnapshotB bucketSnap 2) 2 ≠
      compactSnapshotB bucketSnap 2 := by
  decide

/-- C6 (amended): for a snapshot carrying no frame-bucket refs — so no
bucket frames are reloaded on a later run — compacting the output of a
compaction pass again with the same retention count reproduces it exactly:
the same kept facet list, the same retained frame tail, and the same
(empty) bucket frame list. -/
theorem compaction_idempotent_no_buckets (s : BSnapshot) (N : Nat)
    (h : s.bucketFrames = []) :
    compactSnapshotB (compactSnapshotB s N) N = compactSnapshotB s N := by
  have hcore := compactCore_idempotent (CSnapshot.mk s.facets s.frameHistory) N
  simp only [compactSnapshotB, h, List.append_nil]
  rw [hcore]

/-- C6 witness: a concrete bucketless three-facet snapshot compacts
idempotently at retention 1. -/
theorem compaction_idempotent_no_buckets_witness :
    (BSnapshot.mk scenarioB.facets scenarioB.frameHistory []).bucketFrames
        = [] ∧
    compactSnapshotB (compactSnapshotB
        (BSnapshot.mk scenarioB.facets scenarioB.frameHistory []) 1) 1 =
      compactSnapshotB
        (BSnapshot.mk scenarioB.facets scenarioB.frameHistory []) 1 :=
  ⟨rfl, compaction_idempotent_no_buckets
    (BSnapshot.mk scenarioB.facets scenarioB.frameHistory []) 1 rfl⟩

/-! ## C7: streaming serializer round-trip -/

theorem digitChar_toNat : ∀ n, n < 10 → (digitChar n).toNat = 48 + n := by decide
theorem digitChar_isDigit : ∀ n, n < 10 → (digitChar n).isDigit = true := by decide

theorem charsToNat_append_one (l : List Char) (c : Char) :
    charsToNat (l ++ [c]) = 10 * charsToNat l + (c.toNat - 48) := by
  unfold charsToNat
  rw [List.foldl_append]
  simp [Nat.mul_comm]

theorem natCharsAux_spec : ∀ fuel n, n < fuel →
    (∀ c ∈ natCharsAux fuel n, c.isDigit = true) ∧
      charsToNat (natCharsAux fuel n) = n ∧ natCharsAux fuel n ≠ [] := by
  intro fuel
  induction fuel with
  | zero =>
    intro n hn
    omega
  | succ fuel ih =>
    intro n hn
    by_cases h10 : n < 10
    · refine ⟨?_, ?_, ?_⟩
      · intro c hc
        simp only [natCharsAux, if_pos h10, List.mem_singleton] at hc
        rw [hc]
        exact digitChar_isDigit n h10
      · simp only [natCharsAux, if_pos h10]
        have : charsToNat [digitChar n] = 0 * 10 + ((digitChar n).toNat - 48) := rfl
        rw [this, digitChar_toNat n h10]
        omega
      · simp [natCharsAux, if_pos h10]
    · have hlt : n / 10 < n := Nat.div_lt_self (by omega) (by omega)
      have hdiv : n / 10 < fuel := by omega
      obtain ⟨hd1, hd2, hd3⟩ := ih (n / 10) hdiv
      have hmod : n % 10 < 10 := Nat.mod_lt n (by omega)
      refine ⟨?_, ?_, ?_⟩
      · intro c hc
        simp only [natCharsAux, if_neg h10, List.mem_append, List.mem_singleton] at hc
        rcases hc with hc | hc
        · exact hd1 c hc
        · rw [hc]
          exact digitChar_isDigit _ hmod
      · simp only [natCharsAux, if_neg h10]
        rw [charsToNat_append_one, hd2, digitChar_toNat _ hmod]
        omega
      · simp only [natCharsAux, if_neg h10]
        simp

theorem natChars_spec (n : Nat) :
    (∀ c ∈ natChars n, c.isDigit = true) ∧
      charsToNat (natChars n) = n ∧ natChars n ≠ [] :=
  natCharsAux_spec (n + 1) n (by omega)

theorem takeDigits_spec (l rest : List Char)
    (hl : ∀ c ∈ l, c.isDigit = true)
    (hrest : ∀ c, rest.head? = some c → c.isDigit = false) :
    takeDigits (l ++ rest) = (l, rest) := by
  induction l with
  | nil =>
    cases rest with
    | nil => rfl
    | cons c cs =>
      have : c.isDigit = false := hrest c rfl
      simp [takeDigits, this]
  | cons c cs ih =>
    have hc : c.isDigit = true := hl c (by simp)
    have ih' := ih (fun x hx => hl x (by simp [hx]))
    simp only [List.cons_append, takeDigits, hc, if_pos, List.append_eq]
    rw [ih']

theorem parseNumber_print (n : Int) (rest : List Char) (hrest : headNotDigit rest) :
    parseNumber (intChars n ++ rest) = some (JVal.jnum n, rest) := by
  cases n with
  | ofNat m =>
    obtain ⟨hd, hv, hne⟩ := natChars_spec m
    have hfull : takeDigits (natChars m ++ rest) = (natChars m, rest) :=
      takeDigits_spec (natChars m) rest hd hrest
    cases hm : natChars m with
    | nil => exact absurd hm hne
    | cons c cs =>
      have hc : c.isDigit = true := hd c (by rw [hm]; simp)
      have hcne : ¬ ((c :: cs ++ rest).head? = some '-') := by
        simp only [List.cons_append, List.head?_cons]
        intro hcontr
        have hce : c = '-' := by simpa using hcontr
        rw [hce] at hc
        exact absurd hc (by decide)
      show parseNumber (intChars (Int.ofNat m) ++ rest) = _
      have hint : intChars (Int.ofNat m) = natChars m := rfl
      rw [hint, hm]
      unfold parseNumber
      rw [if_neg hcne]
      rw [hm] at hfull
      rw [hfull]
      rw [hm] at hv
      simp [hv]
  | negSucc m =>
    obtain ⟨hd, hv, hne⟩ := natChars_spec (m + 1)
    have hfull : takeDigits (natChars (m + 1) ++ rest) = (natChars (m + 1), rest) :=
      takeDigits_spec (natChars (m + 1)) rest hd hrest
    have hint : intChars (Int.negSucc m) = '-' :: natChars (m + 1) := rfl
    rw [hint]
    unfold parseNumber
    rw [List.cons_append]
    rw [if_pos (by simp)]
    simp only [List.tail_cons]
    cases hm : natChars (m + 1) with
    | nil => exact absurd hm hne
    | cons c cs =>
      rw [hm] at hfull
      rw [hfull]
      rw [hm] at hv
      simp [hv, Int.negSucc_eq]

theorem hexVal_hexDigitChar : ∀ d, d < 16 → hexVal (hexDigitChar d) = some d := by
  decide

theorem parseStrChars_escape (s : List Char) (rest : List Char) :
    parseStrChars (s.flatMap escapeChar ++ ('"' :: rest)) = some (s, rest) := by
  induction s with
  | nil =>
    rw [List.flatMap_nil, List.nil_append, parseStrChars.eq_def]
    simp
  | cons c cs ih =>
    have hstep : (c :: cs).flatMap escapeChar ++ ('"' :: rest) =
        escapeChar c ++ (cs.flatMap escapeChar ++ ('"' :: rest)) := by
      rw [List.flatMap_cons, List.append_assoc]
    rw [hstep]
    by_cases h1 : c = '"'
    · have hec : escapeChar c = ['\\', '"'] := by
        unfold escapeChar
        rw [if_pos h1]
      subst h1
      rw [hec, List.cons_append, List.cons_append, List.nil_append,
        parseStrChars.eq_def]
      simp [unescapeChar, ih]
    · by_cases h2 : c = '\\'
      · have hec : escapeChar c = ['\\', '\\'] := by
          unfold escapeChar
          rw [if_neg h1, if_pos h2]
        subst h2
        rw [hec, List.cons_append, List.cons_append, List.nil_append,
          parseStrChars.eq_def]
        simp [unescapeChar, ih]
      · by_cases h3 : c = '\n'
        · have hec : escapeChar c = ['\\', 'n'] := by
            unfold escapeChar
            rw [if_neg h1, if_neg h2, if_pos h3]
          rw [hec, List.cons_append, List.cons_append, List.nil_append,
            parseStrChars.eq_def]
          subst h3
          simp [unescapeChar, ih]
        · by_cases h4 : c = '\r'
          · have hec : escapeChar c = ['\\', 'r'] := by
              unfold escapeChar
              rw [if_neg h1, if_neg h2, if_neg h3, if_pos h4]
            rw [hec, List.cons_append, List.cons_append, List.nil_append,
              parseStrChars.eq_def]
            subst h4
            simp [unescapeChar, ih]
          · by_cases h5 : c = '\t'
            · have hec : escapeChar c = ['\\', 't'] := by
                unfold escapeChar
                rw [if_neg h1, if_neg h2, if_neg h3, if_neg h4, if_pos h5]
              rw [hec, List.cons_append, List.cons_append, List.nil_append,
                parseStrChars.eq_def]
              subst h5
              simp [unescapeChar, ih]
            · by_cases h6 : c = Char.ofNat 8
              · have hec : escapeChar c = ['\\', 'b'] := by
                  unfold escapeChar
                  rw [if_neg h1, if_neg h2, if_neg h3, if_neg h4, if_neg h5,
                    if_pos h6]
                rw [hec, List.cons_append, List.cons_append, List.nil_append,
                  parseStrChars.eq_def]
                subst h6
                simp [unescapeChar, ih]
              · by_cases h7 : c = Char.ofNat 12
                · have hec : escapeChar c = ['\\', 'f'] := by
                    unfold escapeChar
                    rw [if_neg h1, if_neg h2, if_neg h3, if_neg h4, if_neg h5,
                      if_neg h6, if_pos h7]
                  rw [hec, List.cons_append, List.cons_append, List.nil_append,
                    parseStrChars.eq_def]
                  subst h7
                  simp [unescapeChar, ih]
                · by_cases h8 : c.toNat < 32
                  · have hec : escapeChar c = ['\\', 'u', '0', '0',
                        hexDigitChar (c.toNat / 16), hexDigitChar (c.toNat % 16)] := by
                      unfold escapeChar
                      rw [if_neg h1, if_neg h2, if_neg h3, if_neg h4, if_neg h5,
                        if_neg h6, if_neg h7, if_pos h8]
                    have hdiv : c.toNat / 16 < 16 := by omega
                    have hmod : c.toNat % 16 < 16 := by omega
                    rw [hec, List.cons_append, List.cons_append, List.cons_append,
                      List.cons_append, List.cons_append, List.cons_append,
                      List.nil_append, parseStrChars.eq_def]
                    dsimp only
                    rw [hexVal_hexDigitChar _ hdiv, hexVal_hexDigitChar _ hmod]
                    rw [ih]
                    have harith : ((0 * 16 + 0) * 16 + c.toNat / 16) * 16 + c.toNat % 16 =
                        c.toNat := by omega
                    rw [if_neg (by decide), if_pos rfl, if_pos rfl]
                    rw [show hexVal '0' = some 0 from rfl]
                    dsimp only
                    rw [harith, Char.ofNat_toNat]
                    rfl
                  · have hec : escapeChar c = [c] := by
                      unfold escapeChar
                      rw [if_neg h1, if_neg h2, if_neg h3, if_neg h4, if_neg h5,
                        if_neg h6, if_neg h7, if_neg h8]
                    rw [hec, List.cons_append, List.nil_append, parseStrChars.eq_def]
                    dsimp only
                    rw [if_neg h1, if_neg h2, ih]
                    rfl

theorem one_le_jfuel (v : JVal) : 1 ≤ jfuel v := by
  cases v with
  | jnull => exact Nat.le_refl 1
  | jbool b => exact Nat.le_refl 1
  | jnum n => exact Nat.le_refl 1
  | jstr s => exact Nat.le_refl 1
  | jarr vs =>
    cases vs with
    | nil => exact Nat.le_refl 1
    | cons v vs => simp [jfuel]
  | jobj kvs =>
    cases kvs with
    | nil => exact Nat.le_refl 1
    | cons kv kvs => simp [jfuel]

theorem one_le_jfuelArrTail (vs : List JVal) : 1 ≤ jfuelArrTail vs := by
  cases vs with
  | nil => exact Nat.le_refl 1
  | cons v vs => simp [jfuelArrTail]

theorem one_le_jfuelObjTail (kvs : List (String × JVal)) : 1 ≤ jfuelObjTail kvs := by
  cases kvs with
  | nil => exact Nat.le_refl 1
  | cons kv kvs => simp [jfuelObjTail]

theorem digit_ne_chars {c : Char} (h : c.isDigit = true) :
    c ≠ 'n' ∧ c ≠ 't' ∧ c ≠ 'f' ∧ c ≠ '"' ∧ c ≠ '[' ∧ c ≠ '\x7b' ∧
      c ≠ ']' ∧ c ≠ '\x7d' := by
  refine ⟨?_, ?_, ?_, ?_, ?_, ?_, ?_, ?_⟩ <;>
    (intro he; rw [he] at h; exact absurd h (by decide))

theorem printJVal_head (v : JVal) :
    ∃ c cs, printJVal v = c :: cs ∧ c ≠ ']' ∧ c ≠ '\x7d' := by
  cases v with
  | jnull => exact ⟨'n', _, rfl, by decide, by decide⟩
  | jbool b =>
    cases b with
    | false => exact ⟨'f', _, rfl, by decide, by decide⟩
    | true => exact ⟨'t', _, rfl, by decide, by decide⟩
  | jnum n =>
    cases n with
    | ofNat m =>
      obtain ⟨hd, _, hne⟩ := natChars_spec m
      cases hm : natChars m with
      | nil => exact absurd hm hne
      | cons c cs =>
        have hc : c.isDigit = true := hd c (by rw [hm]; simp)
        obtain ⟨_, _, _, _, _, _, h7, h8⟩ := digit_ne_chars hc
        refine ⟨c, cs, ?_, h7, h8⟩
        rw [show printJVal (JVal.jnum (Int.ofNat m)) = natChars m from rfl, hm]
    | negSucc m => exact ⟨'-', _, rfl, by decide, by decide⟩
  | jstr s => exact ⟨'"', _, rfl, by decide, by decide⟩
  | jarr vs =>
    cases vs with
    | nil => exact ⟨'[', _, rfl, by decide, by decide⟩
    | cons v vs => exact ⟨'[', _, rfl, by decide, by decide⟩
  | jobj kvs =>
    cases kvs with
    | nil => exact ⟨'\x7b', _, rfl, by decide, by decide⟩
    | cons kv kvs => exact ⟨'\x7b', _, rfl, by decide, by decide⟩

theorem headNotDigit_arrTail (vs : List JVal) (rest : List Char) :
    headNotDigit (printArrTail vs ++ rest) := by
  cases vs with
  | nil =>
    intro c hc
    have hc' : c = ']' := by
      rw [show printArrTail [] = [']'] from rfl] at hc
      exact (by simpa using hc : _ = c).symm
    rw [hc']
    decide
  | cons v vs =>
    intro c hc
    have hc' : c = ',' := by
      rw [show printArrTail (v :: vs) = ',' :: (printJVal v ++ printArrTail vs) from rfl] at hc
      exact (by simpa using hc : _ = c).symm
    rw [hc']
    decide

theorem headNotDigit_objTail (kvs : List (String × JVal)) (rest : List Char) :
    headNotDigit (printObjTail kvs ++ rest) := by
  cases kvs with
  | nil =>
    intro c hc
    have hc' : c = '\x7d' := by
      rw [show printObjTail [] = ['\x7d'] from rfl] at hc
      exact (by simpa using hc : _ = c).symm
    rw [hc']
    decide
  | cons kv kvs =>
    intro c hc
    have hc' : c = ',' := by
      rw [show printObjTail (kv :: kvs) = ',' :: (printField kv ++ printObjTail kvs) from rfl] at hc
      exact (by simpa using hc : _ = c).symm
    rw [hc']
    decide

theorem parse_print (fuel : Nat) :
    (∀ v rest, jfuel v ≤ fuel → headNotDigit rest →
      parseJVal fuel (printJVal v ++ rest) = some (v, rest)) ∧
    (∀ vs rest, jfuelArrTail vs ≤ fuel →
      parseArrTail fuel (printArrTail vs ++ rest) = some (vs, rest)) ∧
    (∀ kv rest, jfuel kv.2 + 1 ≤ fuel → headNotDigit rest →
      parseField fuel (printField kv ++ rest) = some (kv, rest)) ∧
    (∀ kvs rest, jfuelObjTail kvs ≤ fuel →
      parseObjTail fuel (printObjTail kvs ++ rest) = some (kvs, rest)) := by
  induction fuel using Nat.strong_induction_on with
  | _ fuel ih =>
    cases fuel with
    | zero =>
      refine ⟨?_, ?_, ?_, ?_⟩
      · intro v rest hf _
        have := one_le_jfuel v
        omega
      · intro vs rest hf
        have := one_le_jfuelArrTail vs
        omega
      · intro kv rest hf _
        omega
      · intro kvs rest hf
        have := one_le_jfuelObjTail kvs
        omega
    | succ F =>
      have ihF := ih F (by omega)
      refine ⟨?_, ?_, ?_, ?_⟩
      · -- parseJVal
        intro v rest hf hrest
        cases v with
        | jnull =>
          rw [show printJVal JVal.jnull = ['n', 'u', 'l', 'l'] from rfl,
            List.cons_append, List.cons_append, List.cons_append,
            List.cons_append, List.nil_append, parseJVal.eq_def]
          dsimp only
          rw [if_pos rfl]
          simp
        | jbool b =>
          cases b with
          | true =>
            rw [show printJVal (JVal.jbool true) = ['t', 'r', 'u', 'e'] from rfl,
              List.cons_append, List.cons_append, List.cons_append,
              List.cons_append, List.nil_append, parseJVal.eq_def]
            dsimp only
            rw [if_neg (by decide), if_pos rfl]
            simp
          | false =>
            rw [show printJVal (JVal.jbool false) = ['f', 'a', 'l', 's', 'e'] from rfl,
              List.cons_append, List.cons_append, List.cons_append,
              List.cons_append, List.cons_append, List.nil_append, parseJVal.eq_def]
            dsimp only
            rw [if_neg (by decide), if_neg (by decide), if_pos rfl]
            simp
        | jnum n =>
          cases n with
          | ofNat m =>
            obtain ⟨hd, hv, hne⟩ := natChars_spec m
            cases hm : natChars m with
            | nil => exact absurd hm hne
            | cons c cs =>
              have hc : c.isDigit = true := hd c (by rw [hm]; simp)
              obtain ⟨hn1, hn2, hn3, hn4, hn5, hn6, _, _⟩ := digit_ne_chars hc
              rw [show printJVal (JVal.jnum (Int.ofNat m)) = natChars m from rfl, hm,
                List.cons_append, parseJVal.eq_def]
              dsimp only
              rw [if_neg hn1, if_neg hn2, if_neg hn3, if_neg hn4, if_neg hn5, if_neg hn6]
              have hpn := parseNumber_print (Int.ofNat m) rest hrest
              rw [show intChars (Int.ofNat m) = natChars m from rfl, hm,
                List.cons_append] at hpn
              exact hpn
          | negSucc m =>
            rw [show printJVal (JVal.jnum (Int.negSucc m)) = '-' :: natChars (m + 1) from rfl,
              List.cons_append, parseJVal.eq_def]
            dsimp only
            rw [if_neg (by decide), if_neg (by decide), if_neg (by decide),
              if_neg (by decide), if_neg (by decide), if_neg (by decide)]
            have hpn := parseNumber_print (Int.negSucc m) rest hrest
            rw [show intChars (Int.negSucc m) = '-' :: natChars (m + 1) from rfl,
              List.cons_append] at hpn
            exact hpn
        | jstr s =>
          rw [show printJVal (JVal.jstr s) = '"' :: (s.data.flatMap escapeChar ++ ['"']) from rfl,
            List.cons_append, parseJVal.eq_def]
          dsimp only
          rw [if_neg (by decide), if_neg (by decide), if_neg (by decide), if_pos rfl]
          rw [List.append_assoc, List.singleton_append]
          rw [parseStrChars_escape]
          rfl
        | jarr vs =>
          cases vs with
          | nil =>
            rw [show printJVal (JVal.jarr []) = ['[', ']'] from rfl,
              List.cons_append, List.cons_append, List.nil_append, parseJVal.eq_def]
            dsimp only
            rw [if_neg (by decide), if_neg (by decide), if_neg (by decide),
              if_neg (by decide), if_pos rfl]
            rw [List.head?_cons, if_pos rfl, List.tail_cons]
          | cons v vs =>
            rw [show printJVal (JVal.jarr (v :: vs)) =
                '[' :: (printJVal v ++ printArrTail vs) from rfl,
              List.cons_append, parseJVal.eq_def]
            dsimp only
            rw [if_neg (by decide), if_neg (by decide), if_neg (by decide),
              if_neg (by decide), if_pos rfl]
            obtain ⟨c0, cs0, hh, hne1, _⟩ := printJVal_head v
            have hcond : ¬ (((printJVal v ++ printArrTail vs) ++ rest).head? = some ']') := by
              rw [hh, List.cons_append, List.cons_append, List.head?_cons]
              intro hcontr
              exact hne1 (by simpa using hcontr)
            rw [if_neg hcond, List.append_assoc]
            have heq : jfuel (JVal.jarr (v :: vs)) = jfuel v + jfuelArrTail vs + 1 := rfl
            have hfv : jfuel v ≤ F := by omega
            have hfvs : jfuelArrTail vs ≤ F := by
              have := one_le_jfuel v
              omega
            rw [ihF.1 v (printArrTail vs ++ rest) hfv (headNotDigit_arrTail vs rest)]
            dsimp only
            rw [ihF.2.1 vs rest hfvs]
        | jobj kvs =>
          cases kvs with
          | nil =>
            rw [show printJVal (JVal.jobj []) = ['\x7b', '\x7d'] from rfl,
              List.cons_append, List.cons_append, List.nil_append, parseJVal.eq_def]
            dsimp only
            rw [if_neg (by decide), if_neg (by decide), if_neg (by decide),
              if_neg (by decide), if_neg (by decide), if_pos rfl]
            rw [List.head?_cons, if_pos rfl, List.tail_cons]
          | cons kv kvs =>
            rw [show printJVal (JVal.jobj (kv :: kvs)) =
                '\x7b' :: (printField kv ++ printObjTail kvs) from rfl,
              List.cons_append, parseJVal.eq_def]
            dsimp only
            rw [if_neg (by decide), if_neg (by decide), if_neg (by decide),
              if_neg (by decide), if_neg (by decide), if_pos rfl]
            have hfieldhead : ∃ cs0, printField kv = '"' :: cs0 := by
              obtain ⟨k, v⟩ := kv
              exact ⟨_, rfl⟩
            obtain ⟨cs0, hh⟩ := hfieldhead
            have hcond : ¬ (((printField kv ++ printObjTail kvs) ++ rest).head? = some '\x7d') := by
              rw [hh, List.cons_append, List.cons_append, List.head?_cons]
              intro hcontr
              exact absurd (show ('"' : Char) = '\x7d' by simp at hcontr) (by decide)
            rw [if_neg hcond, List.append_assoc]
            have heq : jfuel (JVal.jobj (kv :: kvs)) = jfuel kv.2 + jfuelObjTail kvs + 2 := rfl
            have hfv : jfuel kv.2 + 1 ≤ F := by omega
            have hfvs : jfuelObjTail kvs ≤ F := by
              have := one_le_jfuel kv.2
              omega
            rw [ihF.2.2.1 kv (printObjTail kvs ++ rest) hfv (headNotDigit_objTail kvs rest)]
            dsimp only
            rw [ihF.2.2.2 kvs rest hfvs]
      · -- parseArrTail
        intro vs rest hf
        cases vs with
        | nil =>
          rw [show printArrTail [] = [']'] from rfl, List.cons_append,
            List.nil_append, parseArrTail.eq_def]
          dsimp only
          rw [if_pos rfl]
        | cons v vs =>
          rw [show printArrTail (v :: vs) = ',' :: (printJVal v ++ printArrTail vs) from rfl,
            List.cons_append, parseArrTail.eq_def]
          dsimp only
          rw [if_neg (by decide), if_pos rfl, List.append_assoc]
          have heq : jfuelArrTail (v :: vs) = jfuel v + jfuelArrTail vs + 1 := rfl
          have hfv : jfuel v ≤ F := by
            have := one_le_jfuelArrTail vs
            omega
          have hfvs : jfuelArrTail vs ≤ F := by
            have := one_le_jfuel v
            omega
          rw [ihF.1 v (printArrTail vs ++ rest) hfv (headNotDigit_arrTail vs rest)]
          dsimp only
          rw [ihF.2.1 vs rest hfvs]
      · -- parseField
        intro kv rest hf hrest
        obtain ⟨k, v⟩ := kv
        rw [show printField (k, v) =
            '"' :: (k.data.flatMap escapeChar ++ ('"' :: (':' :: printJVal v))) from rfl,
          List.cons_append, parseField.eq_def]
        dsimp only
        rw [if_pos rfl, List.append_assoc]
        have hassoc : ('"' :: (':' :: printJVal v)) ++ rest =
            '"' :: (':' :: (printJVal v ++ rest)) := by
          rw [List.cons_append, List.cons_append]
        rw [hassoc, parseStrChars_escape]
        dsimp only
        rw [List.head?_cons, if_pos rfl, List.tail_cons]
        have hfv : jfuel v ≤ F := by
          simp only at hf
          omega
        rw [ihF.1 v rest hfv hrest]
      · -- parseObjTail
        intro kvs rest hf
        cases kvs with
        | nil =>
          rw [show printObjTail [] = ['\x7d'] from rfl, List.cons_append,
            List.nil_append, parseObjTail.eq_def]
          dsimp only
          rw [if_pos rfl]
        | cons kv kvs =>
          rw [show printObjTail (kv :: kvs) = ',' :: (printField kv ++ printObjTail kvs) from rfl,
            List.cons_append, parseObjTail.eq_def]
          dsimp only
          rw [if_neg (by decide), if_pos rfl, List.append_assoc]
          have heq : jfuelObjTail (kv :: kvs) = jfuel kv.2 + jfuelObjTail kvs + 2 := rfl
          have hfv : jfuel kv.2 + 1 ≤ F := by
            have := one_le_jfuelObjTail kvs
            omega
          have hfvs : jfuelObjTail kvs ≤ F := by
            have := one_le_jfuel kv.2
            omega
          rw [ihF.2.2.1 kv (printObjTail kvs ++ rest) hfv (headNotDigit_objTail kvs rest)]
          dsimp only
          rw [ihF.2.2.2 kvs rest hfvs]

theorem jfuel_le_print (n : Nat) :
    (∀ v, jfuel v ≤ n → jfuel v ≤ 2 * (printJVal v).length + 1) ∧
    (∀ vs, jfuelArrTail vs ≤ n → jfuelArrTail vs ≤ 2 * (printArrTail vs).length) ∧
    (∀ kvs, jfuelObjTail kvs ≤ n → jfuelObjTail kvs ≤ 2 * (printObjTail kvs).length) := by
  induction n with
  | zero =>
    refine ⟨?_, ?_, ?_⟩
    · intro v hv
      have := one_le_jfuel v
      omega
    · intro vs hv
      have := one_le_jfuelArrTail vs
      omega
    · intro kvs hv
      have := one_le_jfuelObjTail kvs
      omega
  | succ n ih =>
    have hfield : ∀ kv : String × JVal,
        (printField kv).length = (kv.1.data.flatMap escapeChar).length +
          (printJVal kv.2).length + 3 := by
      intro kv
      obtain ⟨k, v⟩ := kv
      rw [show printField (k, v) =
        '"' :: (k.data.flatMap escapeChar ++ ('"' :: (':' :: printJVal v))) from rfl]
      simp
      omega
    refine ⟨?_, ?_, ?_⟩
    · intro v hv
      cases v with
      | jnull => simp [jfuel]
      | jbool b => cases b <;> simp [jfuel]
      | jnum m => simp [jfuel]
      | jstr s => simp [jfuel]
      | jarr vs =>
        cases vs with
        | nil => simp [jfuel]
        | cons x xs =>
          have heq : jfuel (JVal.jarr (x :: xs)) = jfuel x + jfuelArrTail xs + 1 := rfl
          have h1 : jfuel x ≤ n := by
            have := one_le_jfuelArrTail xs
            omega
          have h2 : jfuelArrTail xs ≤ n := by
            have := one_le_jfuel x
            omega
          have b1 := ih.1 x h1
          have b2 := ih.2.1 xs h2
          have hlen : (printJVal (JVal.jarr (x :: xs))).length =
              1 + (printJVal x).length + (printArrTail xs).length := by
            rw [show printJVal (JVal.jarr (x :: xs)) =
              '[' :: (printJVal x ++ printArrTail xs) from rfl]
            simp
            omega
          omega
      | jobj kvs =>
        cases kvs with
        | nil => simp [jfuel]
        | cons kv kvs =>
          have heq : jfuel (JVal.jobj (kv :: kvs)) =
              jfuel kv.2 + jfuelObjTail kvs + 2 := rfl
          have h1 : jfuel kv.2 ≤ n := by
            have := one_le_jfuelObjTail kvs
            omega
          have h2 : jfuelObjTail kvs ≤ n := by
            have := one_le_jfuel kv.2
            omega
          have b1 := ih.1 kv.2 h1
          have b2 := ih.2.2 kvs h2
          have hlen : (printJVal (JVal.jobj (kv :: kvs))).length =
              1 + (printField kv).length + (printObjTail kvs).length := by
            rw [show printJVal (JVal.jobj (kv :: kvs)) =
              '\x7b' :: (printField kv ++ printObjTail kvs) from rfl]
            simp
            omega
          have hf := hfield kv
          omega
    · intro vs hv
      cases vs with
      | nil => simp [jfuelArrTail, printArrTail]
      | cons x xs =>
        have heq : jfuelArrTail (x :: xs) = jfuel x + jfuelArrTail xs + 1 := rfl
        have h1 : jfuel x ≤ n := by
          have := one_le_jfuelArrTail xs
          omega
        have h2 : jfuelArrTail xs ≤ n := by
          have := one_le_jfuel x
          omega
        have b1 := ih.1 x h1
        have b2 := ih.2.1 xs h2
        have hlen : (printArrTail (x :: xs)).length =
            1 + (printJVal x).length + (printArrTail xs).length := by
          rw [show printArrTail (x :: xs) = ',' :: (printJVal x ++ printArrTail xs) from rfl]
          simp
          omega
        omega
    · intro kvs hv
      cases kvs with
      | nil => simp [jfuelObjTail, printObjTail]
      | cons kv kvs =>
        have heq : jfuelObjTail (kv :: kvs) = jfuel kv.2 + jfuelObjTail kvs + 2 := rfl
        have h1 : jfuel kv.2 ≤ n := by
          have := one_le_jfuelObjTail kvs
          omega
        have h2 : jfuelObjTail kvs ≤ n := by
          have := one_le_jfuel kv.2
          omega
        have b1 := ih.1 kv.2 h1
        have b2 := ih.2.2 kvs h2
        have hlen : (printObjTail (kv :: kvs)).length =
            1 + (printField kv).length + (printObjTail kvs).length := by
          rw [show printObjTail (kv :: kvs) = ',' :: (printField kv ++ printObjTail kvs) from rfl]
          simp
          omega
        have hf : (printField kv).length = (kv.1.data.flatMap escapeChar).length +
            (printJVal kv.2).length + 3 := by
          obtain ⟨k, v⟩ := kv
          rw [show printField (k, v) =
            '"' :: (k.data.flatMap escapeChar ++ ('"' :: (':' :: printJVal v))) from rfl]
          simp
          omega
        omega

theorem parseDoc_print (v : JVal) : parseDoc (printJVal v) = some v := by
  unfold parseDoc
  have hb := (jfuel_le_print (jfuel v)).1 v (Nat.le_refl _)
  have h := (parse_print (2 * (printJVal v).length + 1)).1 v []
    (by omega)
    (by intro c hc; simp at hc)
  rw [List.append_nil] at h
  rw [h]

theorem facetsTail_join (xs : List JVal) :
    (xs.flatMap (fun u => [[','], printJVal u])).flatten ++ [']'] = printArrTail xs := by
  induction xs with
  | nil => rfl
  | cons u us ih =>
    rw [List.flatMap_cons, List.flatten_append]
    rw [show ([[','], printJVal u] : List (List Char)).flatten = ',' :: printJVal u by simp]
    rw [show printArrTail (u :: us) = ',' :: (printJVal u ++ printArrTail us) from rfl]
    rw [List.cons_append, List.cons_append, List.append_assoc, ih]

theorem streamFacets_join (xs : List JVal) :
    (streamFacetsChunks xs).flatten = printJVal (JVal.jarr xs) := by
  cases xs with
  | nil => rfl
  | cons x rest =>
    rw [show streamFacetsChunks (x :: rest) =
      [['[']] ++ ([printJVal x] ++ rest.flatMap (fun u => [[','], printJVal u])) ++ [[']']]
      from rfl]
    rw [show printJVal (JVal.jarr (x :: rest)) =
      '[' :: (printJVal x ++ printArrTail rest) from rfl]
    simp only [List.flatten_append, List.flatten_cons, List.flatten_nil]
    rw [← facetsTail_join rest]
    simp

theorem veilField_join (kv : String × JVal) :
    (veilFieldChunks kv).flatten = printField kv := by
  obtain ⟨k, v⟩ := kv
  have hkey : printJVal (JVal.jstr k) = '"' :: (k.data.flatMap escapeChar ++ ['"']) := rfl
  have hpf : printField (k, v) =
      '"' :: (k.data.flatMap escapeChar ++ ('"' :: (':' :: printJVal v))) := rfl
  cases v with
  | jarr xs =>
    by_cases hf : k = "facets"
    · rw [show veilFieldChunks (k, JVal.jarr xs) =
        [printJVal (JVal.jstr k) ++ [':']] ++ streamFacetsChunks xs by
          simp [veilFieldChunks, hf]]
      rw [List.flatten_append, streamFacets_join]
      rw [show ([printJVal (JVal.jstr k) ++ [':']] : List (List Char)).flatten =
        printJVal (JVal.jstr k) ++ [':'] by simp]
      rw [hkey, hpf]
      simp
    · rw [show veilFieldChunks (k, JVal.jarr xs) =
        [printJVal (JVal.jstr k) ++ [':']] ++ [printJVal (JVal.jarr xs)] by
          simp [veilFieldChunks, hf]]
      rw [hkey, hpf]
      simp
  | jnull =>
    rw [show veilFieldChunks (k, JVal.jnull) =
      [printJVal (JVal.jstr k) ++ [':']] ++ [printJVal JVal.jnull] from rfl]
    rw [hkey, hpf]
    simp
  | jbool b =>
    rw [show veilFieldChunks (k, JVal.jbool b) =
      [printJVal (JVal.jstr k) ++ [':']] ++ [printJVal (JVal.jbool b)] from rfl]
    rw [hkey, hpf]
    simp
  | jnum m =>
    rw [show veilFieldChunks (k, JVal.jnum m) =
      [printJVal (JVal.jstr k) ++ [':']] ++ [printJVal (JVal.jnum m)] from rfl]
    rw [hkey, hpf]
    simp
  | jstr s =>
    rw [show veilFieldChunks (k, JVal.jstr s) =
      [printJVal (JVal.jstr k) ++ [':']] ++ [printJVal (JVal.jstr s)] from rfl]
    rw [hkey, hpf]
    simp
  | jobj kvs =>
    rw [show veilFieldChunks (k, JVal.jobj kvs) =
      [printJVal (JVal.jstr k) ++ [':']] ++ [printJVal (JVal.jobj kvs)] from rfl]
    rw [hkey, hpf]
    simp

theorem veilFieldsTail_join (kvs : List (String × JVal)) :
    (kvs.flatMap (fun u => [[',']] ++ veilFieldChunks u)).flatten ++ ['\x7d'] =
      printObjTail kvs := by
  induction kvs with
  | nil => rfl
  | cons kv rest ih =>
    rw [List.flatMap_cons, List.flatten_append, List.flatten_append]
    rw [show ([[',']] : List (List Char)).flatten = [','] by simp]
    rw [show printObjTail (kv :: rest) = ',' :: (printField kv ++ printObjTail rest) from rfl]
    rw [List.append_assoc, List.append_assoc, ih, veilField_join]
    rfl

theorem veilValue_join (v : JVal) (h : ∀ xs, v ≠ JVal.jarr xs) :
    (veilValueChunks v).flatten = printJVal v := by
  cases v with
  | jarr xs => exact absurd rfl (h xs)
  | jobj kvs =>
    cases kvs with
    | nil => rfl
    | cons kv rest =>
      rw [show veilValueChunks (JVal.jobj (kv :: rest)) =
        [['\x7b']] ++ (veilFieldChunks kv ++
          rest.flatMap (fun u => [[',']] ++ veilFieldChunks u)) ++ [['\x7d']] from rfl]
      rw [show printJVal (JVal.jobj (kv :: rest)) =
        '\x7b' :: (printField kv ++ printObjTail rest) from rfl]
      simp only [List.flatten_append, List.flatten_cons, List.flatten_nil]
      rw [← veilFieldsTail_join rest, ← veilField_join kv]
      simp
  | jnull => simp [veilValueChunks]
  | jbool b => simp [veilValueChunks]
  | jnum m => simp [veilValueChunks]
  | jstr s => simp [veilValueChunks]

theorem topField_join (kv : String × JVal)
    (h : kv.1 = "veilState" → ∀ xs, kv.2 ≠ JVal.jarr xs) :
    (topFieldChunks kv).flatten = printField kv := by
  obtain ⟨k, v⟩ := kv
  have hkey : printJVal (JVal.jstr k) = '"' :: (k.data.flatMap escapeChar ++ ['"']) := rfl
  have hpf : printField (k, v) =
      '"' :: (k.data.flatMap escapeChar ++ ('"' :: (':' :: printJVal v))) := rfl
  by_cases hv : k = "veilState"
  · rw [show topFieldChunks (k, v) =
      [printJVal (JVal.jstr k) ++ [':']] ++ veilValueChunks v by
        simp [topFieldChunks, hv]]
    rw [List.flatten_append, veilValue_join v (h hv)]
    rw [show ([printJVal (JVal.jstr k) ++ [':']] : List (List Char)).flatten =
      printJVal (JVal.jstr k) ++ [':'] by simp]
    rw [hkey, hpf]
    simp
  · rw [show topFieldChunks (k, v) =
      [printJVal (JVal.jstr k) ++ [':']] ++ [printJVal v] by
        simp [topFieldChunks, hv]]
    rw [hkey, hpf]
    simp

theorem topFieldsTail_join (kvs : List (String × JVal))
    (h : ∀ v, ("veilState", v) ∈ kvs → ∀ xs, v ≠ JVal.jarr xs) :
    (kvs.flatMap (fun u => [[',']] ++ topFieldChunks u)).flatten ++ ['\x7d'] =
      printObjTail kvs := by
  induction kvs with
  | nil => rfl
  | cons kv rest ih =>
    rw [List.flatMap_cons, List.flatten_append, List.flatten_append]
    rw [show ([[',']] : List (List Char)).flatten = [','] by simp]
    rw [show printObjTail (kv :: rest) = ',' :: (printField kv ++ printObjTail rest) from rfl]
    have hkv : kv.1 = "veilState" → ∀ xs, kv.2 ≠ JVal.jarr xs := by
      intro h1 xs
      refine h kv.2 ?_ xs
      rw [List.mem_cons]
      refine Or.inl ?_
      rw [← h1]
    have hrest : ∀ v, ("veilState", v) ∈ rest → ∀ xs, v ≠ JVal.jarr xs := by
      intro v hv xs
      exact h v (List.mem_cons_of_mem kv hv) xs
    rw [List.append_assoc, List.append_assoc, ih hrest, topField_join kv hkv]
    rfl

theorem streamChunks_join (snap : List (String × JVal))
    (h : ∀ v, ("veilState", v) ∈ snap → ∀ xs, v ≠ JVal.jarr xs) :
    (streamChunks snap).flatten = printJVal (JVal.jobj snap) := by
  cases snap with
  | nil => rfl
  | cons kv rest =>
    rw [show streamChunks (kv :: rest) =
      [['\x7b']] ++ (topFieldChunks kv ++
        rest.flatMap (fun u => [[',']] ++ topFieldChunks u)) ++ [['\x7d']] from rfl]
    rw [show printJVal (JVal.jobj (kv :: rest)) =
      '\x7b' :: (printField kv ++ printObjTail rest) from rfl]
    have hkv : kv.1 = "veilState" → ∀ xs, kv.2 ≠ JVal.jarr xs := by
      intro h1 xs
      refine h kv.2 ?_ xs
      rw [List.mem_cons]
      refine Or.inl ?_
      rw [← h1]
    have hrest : ∀ v, ("veilState", v) ∈ rest → ∀ xs, v ≠ JVal.jarr xs := by
      intro v hv xs
      exact h v (List.mem_cons_of_mem kv hv) xs
    simp only [List.flatten_append, List.flatten_cons, List.flatten_nil]
    rw [← topFieldsTail_join rest hrest, ← topField_join kv hkv]
    simp

/-- C7 counterexample: when the snapshot's veilState field holds an array,
the streaming serializer enumerates it with Object.keys and emits an
index-keyed object, so the concatenated chunks parse to a structure that
is not deep-equal to the input. -/
theorem stream_write_counterexample :
    parseDoc ((streamChunks veilArraySnap).flatten) =
      some (JVal.jobj [("veilState", JVal.jobj [("0", JVal.jnum 7)])]) ∧
    JVal.jobj [("veilState", JVal.jobj [("0", JVal.jnum 7)])] ≠
      JVal.jobj veilArraySnap := by
  constructor
  · rfl
  · intro hcontr
    rw [veilArraySnap] at hcontr
    have h1 := (JVal.jobj.injEq _ _).mp hcontr
    have h2 := (List.cons.injEq _ _ _ _).mp h1
    have h3 := (Prod.mk.injEq _ _ _ _).mp h2.1
    exact JVal.noConfusion h3.2

/-- C7 (amended): for every snapshot structure whose veilState field is
not an array, the concatenation of the chunks written by
streamWriteSnapshot equals the conventional one-shot serialization of the
whole structure — a single syntactically valid JSON document — and
parsing it back yields a structure deep-equal to the input. -/
theorem stream_write_roundtrip (snap : List (String × JVal))
    (h : ∀ v, ("veilState", v) ∈ snap → ∀ xs, v ≠ JVal.jarr xs) :
    (streamChunks snap).flatten = printJVal (JVal.jobj snap) ∧
    parseDoc ((streamChunks snap).flatten) = some (JVal.jobj snap) := by
  have hj := streamChunks_join snap h
  exact ⟨hj, by rw [hj, parseDoc_print]⟩

/-- C7 witness: a concrete two-field snapshot with a facets array inside
veilState round-trips through the streaming serializer. -/
theorem stream_write_roundtrip_witness :
    (streamChunks [("veilState", JVal.jobj [("facets", JVal.jarr [JVal.jstr "x"]),
        ("frameHistory", JVal.jarr [])]), ("meta", JVal.jnum 3)]).flatten =
      printJVal (JVal.jobj [("veilState", JVal.jobj [("facets", JVal.jarr [JVal.jstr "x"]),
        ("frameHistory", JVal.jarr [])]), ("meta", JVal.jnum 3)]) ∧
    parseDoc ((streamChunks [("veilState", JVal.jobj [("facets", JVal.jarr [JVal.jstr "x"]),
        ("frameHistory", JVal.jarr [])]), ("meta", JVal.jnum 3)]).flatten) =
      some (JVal.jobj [("veilState", JVal.jobj [("facets", JVal.jarr [JVal.jstr "x"]),
        ("frameHistory", JVal.jarr [])]), ("meta", JVal.jnum 3)]) :=
  stream_write_roundtrip
    [("veilState", JVal.jobj [("facets", JVal.jarr [JVal.jstr "x"]),
      ("frameHistory", JVal.jarr [])]), ("meta", JVal.jnum 3)]
    (by
      intro v hv xs
      simp only [List.mem_cons, List.not_mem_nil, or_false, Prod.mk.injEq] at hv
      rcases hv with ⟨_, hv⟩ | ⟨hbad, _⟩
      · rw [hv]
        intro hcontra
        exact JVal.noConfusion hcontra
      · exact absurd hbad (by decide))

end SignalAxon
